import Mathlib

/-!
# Verification of the weather-dashboard reconciliation engine

Shallow embedding of `src/data_processing.py` (class `WeatherDataProcess`):
the five table-reconciliation functions `_update_location`,
`_update_current_temp`, `_update_forecast`, `_update_merged`,
`_update_stats`, and the derivation function `_stats_cal`.

Modelling conventions:
* A cell of a polars DataFrame is an `Option Val` (`none` = null).
  Strings are `String`, integers/epochs are `Int`, floating temperatures
  are modelled as rationals `ℚ`, booleans `Bool`.
* Dates are `Val.i` integers counting whole days; datetimes are `Val.i`
  integers counting milliseconds.  Polars represents the difference of two
  `pl.Date` columns in milliseconds and the source divides by
  `MS_PER_DAY = 86,400,000` and casts to `Int32`; since dates are whole-day
  multiples this is exactly the difference of the day counts, which is how
  `dayDiffV` below computes it (dates stored directly as day counts).
* A row is an association list from column names to cells; `Row.get` of an
  absent column is `none`.
* A polars full outer join with `on=` keys and `suffix="_new"` keeps the
  left-side columns under their own names and every right-side column under
  a `_new`-suffixed name (left and right schemas coincide in all five
  reconcile calls, so every right column is suffixed).  The joined row is
  modelled as the *pair* (left row, right row); the unmatched side is the
  all-null row, exactly as polars null-fills it.  `pl.coalesce([c_new, c])`
  becomes `coalesce2 (right.get c) (left.get c)`.
* The `str.to_datetime` / `str.to_date` re-typing of freshly loaded CSV
  columns is the identity here: the embedding stores typed values, and the
  spec (§4.2 Errors) makes type normalization a precondition of reconcile.
-/

namespace WeatherRecon

/-- Strict lexicographic comparison of lists of naturals (used to compare
strings by their character codes). -/
def natListLtB : List Nat → List Nat → Bool
  | [], [] => false
  | [], _ :: _ => true
  | _ :: _, [] => false
  | a :: as, b :: bs =>
      if a < b then true else if b < a then false else natListLtB as bs

theorem natListLtB_irrefl (a : List Nat) : natListLtB a a = false := by
  induction a with
  | nil => rfl
  | cons x xs ih => simp [natListLtB, ih]

theorem natListLtB_asymm {a : List Nat} : ∀ {b : List Nat},
    natListLtB a b = true → natListLtB b a = false := by
  induction a with
  | nil =>
    intro b h
    cases b with
    | nil => simp [natListLtB] at h
    | cons y ys => rfl
  | cons x xs ih =>
    intro b h
    cases b with
    | nil => simp [natListLtB] at h
    | cons y ys =>
      simp only [natListLtB] at h ⊢
      by_cases hxy : x < y
      · have hyx : ¬ y < x := by omega
        have hne : ¬ x < y → False := fun hc => hc hxy
        simp [hyx, hxy]
      · by_cases hyx : y < x
        · simp [hxy, hyx] at h
        · have heq : x = y := by omega
          subst heq
          simp only [hxy, if_neg hxy] at h ⊢
          exact ih h

theorem natListLtB_trans {a : List Nat} : ∀ {b c : List Nat},
    natListLtB a b = true → natListLtB b c = true →
    natListLtB a c = true := by
  induction a with
  | nil =>
    intro b c h1 h2
    cases c with
    | nil =>
      cases b with
      | nil => simp [natListLtB] at h1
      | cons y ys => simp [natListLtB] at h2
    | cons z zs => rfl
  | cons x xs ih =>
    intro b c h1 h2
    cases b with
    | nil => simp [natListLtB] at h1
    | cons y ys =>
      cases c with
      | nil => simp [natListLtB] at h2
      | cons z zs =>
        simp only [natListLtB] at h1 h2 ⊢
        by_cases hxy : x < y
        · by_cases hyz : y < z
          · simp [show x < z by omega]
          · by_cases hzy : z < y
            · simp [hyz, hzy] at h2
            · have : y = z := by omega
              subst this
              simp [hxy]
        · by_cases hyx : y < x
          · simp [hxy, hyx] at h1
          · have : x = y := by omega
            subst this
            simp only [hxy, if_neg hxy] at h1 ⊢
            by_cases hyz : x < z
            · simp [hyz]
            · by_cases hzy : z < x
              · simp [hyz, hzy] at h2
              · have : x = z := by omega
                subst this
                simp only [hyz, if_neg hyz] at h2 ⊢
                exact ih h1 h2

theorem natListLtB_eq_of_not {a : List Nat} : ∀ {b : List Nat},
    natListLtB a b = false → natListLtB b a = false → a = b := by
  induction a with
  | nil =>
    intro b h1 _
    cases b with
    | nil => rfl
    | cons y ys => simp [natListLtB] at h1
  | cons x xs ih =>
    intro b h1 h2
    cases b with
    | nil => simp [natListLtB] at h2
    | cons y ys =>
      simp only [natListLtB] at h1 h2
      by_cases hxy : x < y
      · simp [hxy] at h1
      · by_cases hyx : y < x
        · simp [hxy, hyx] at h2
        · have heq : x = y := by omega
          subst heq
          simp only [hxy, if_neg hxy] at h1 h2
          rw [ih h1 h2]

/-- Strict comparison of strings, lexicographic on the character codes (an
executable stand-in for the lexicographic string order polars sorts by;
which total order is used is immaterial to the claims). -/
def strLtB (x y : String) : Bool :=
  natListLtB (x.data.map Char.toNat) (y.data.map Char.toNat)

theorem strLtB_irrefl (x : String) : strLtB x x = false :=
  natListLtB_irrefl _

theorem strLtB_asymm {x y : String} (h : strLtB x y = true) :
    strLtB y x = false :=
  natListLtB_asymm h

theorem strLtB_trans {x y z : String} (h1 : strLtB x y = true)
    (h2 : strLtB y z = true) : strLtB x z = true :=
  natListLtB_trans h1 h2

theorem strLtB_eq_of_not {x y : String} (h1 : strLtB x y = false)
    (h2 : strLtB y x = false) : x = y := by
  have hdata : x.data.map Char.toNat = y.data.map Char.toNat :=
    natListLtB_eq_of_not h1 h2
  have hinj : Function.Injective Char.toNat := by
    intro a b h
    exact Char.ext (UInt32.ext h)
  have hxy : x.data = y.data := List.map_injective_iff.mpr hinj hdata
  cases x
  cases y
  exact congrArg String.mk hxy

/-- A scalar cell value: string, integer (dates in days / datetimes in ms /
epochs / codes), rational (temperatures and other float metrics), or
boolean. -/
inductive Val : Type where
  | s (v : String)
  | i (v : Int)
  | q (v : ℚ)
  | b (v : Bool)
deriving DecidableEq, Repr

namespace Val

/-- Rank by constructor, used to order cells of different runtime types
deterministically (polars would never compare them; any fixed order is
faithful for the claims, which only compare same-typed keys). -/
def rank : Val → Nat
  | .s _ => 0
  | .i _ => 1
  | .q _ => 2
  | .b _ => 3

/-- Strict comparison of two cell values: by rank, then by payload. -/
def ltB : Val → Val → Bool
  | .s x, .s y => strLtB x y
  | .i x, .i y => decide (x < y)
  | .q x, .q y => decide (x < y)
  | .b x, .b y => decide (x < y)
  | x, y => decide (x.rank < y.rank)

theorem ltB_irrefl (a : Val) : a.ltB a = false := by
  cases a <;> simp [ltB, strLtB_irrefl]

theorem ltB_asymm {a b : Val} (h : a.ltB b = true) : b.ltB a = false := by
  cases a <;> cases b <;>
    simp only [ltB, rank, decide_eq_true_eq, decide_eq_false_iff_not, not_lt] at h ⊢ <;>
    first
      | omega
      | exact le_of_lt h
      | exact strLtB_asymm h

theorem ltB_trans {a b c : Val} (h1 : a.ltB b = true) (h2 : b.ltB c = true) :
    a.ltB c = true := by
  cases a <;> cases b <;> cases c <;>
    simp only [ltB, rank, decide_eq_true_eq] at h1 h2 ⊢ <;>
    first
      | omega
      | exact lt_trans h1 h2
      | exact strLtB_trans h1 h2

theorem eq_of_not_ltB {a b : Val} (h1 : a.ltB b = false) (h2 : b.ltB a = false) :
    a = b := by
  cases a <;> cases b <;>
    simp only [ltB, rank, decide_eq_false_iff_not, not_lt, s.injEq, i.injEq, q.injEq,
      b.injEq] at h1 h2 ⊢ <;>
    first
      | omega
      | exact le_antisymm h2 h1
      | exact strLtB_eq_of_not h1 h2

end Val

/-- Strict comparison of cells, nulls ordered first (nulls sort to the
front under the polars default used by the source's `.sort(...)` calls). -/
def ovLtB : Option Val → Option Val → Bool
  | none, none => false
  | none, some _ => true
  | some _, none => false
  | some a, some b => a.ltB b

theorem ovLtB_irrefl (a : Option Val) : ovLtB a a = false := by
  cases a <;> simp [ovLtB, Val.ltB_irrefl]

theorem ovLtB_asymm {a b : Option Val} (h : ovLtB a b = true) : ovLtB b a = false := by
  cases a <;> cases b <;> simp_all [ovLtB, Val.ltB_asymm]

theorem ovLtB_trans {a b c : Option Val} (h1 : ovLtB a b = true)
    (h2 : ovLtB b c = true) : ovLtB a c = true := by
  cases a <;> cases b <;> cases c <;> simp_all [ovLtB]
  exact Val.ltB_trans h1 h2

theorem ov_eq_of_not_ltB {a b : Option Val} (h1 : ovLtB a b = false)
    (h2 : ovLtB b a = false) : a = b := by
  cases a <;> cases b <;> simp_all [ovLtB]
  exact Val.eq_of_not_ltB h1 h2

/-- Lexicographic non-strict comparison of key tuples (the source sorts by
several key columns at once; polars compares them lexicographically). -/
def keyLeB : List (Option Val) → List (Option Val) → Bool
  | [], _ => true
  | _ :: _, [] => false
  | a :: as, b :: bs =>
      if ovLtB a b then true
      else if a = b then keyLeB as bs
      else false

theorem ov_trichotomy (x y : Option Val) :
    ovLtB x y = true ∨ x = y ∨ ovLtB y x = true := by
  by_cases h1 : ovLtB x y = true
  · exact Or.inl h1
  · by_cases h2 : ovLtB y x = true
    · exact Or.inr (Or.inr h2)
    · exact Or.inr (Or.inl (ov_eq_of_not_ltB (by simpa using h1) (by simpa using h2)))

theorem keyLeB_cons_lt {x y : Option Val} (h : ovLtB x y = true)
    (xs ys : List (Option Val)) : keyLeB (x :: xs) (y :: ys) = true := by
  simp [keyLeB, h]

theorem keyLeB_cons_eq (x : Option Val) (xs ys : List (Option Val)) :
    keyLeB (x :: xs) (x :: ys) = keyLeB xs ys := by
  simp [keyLeB, ovLtB_irrefl]

theorem keyLeB_cons_gt {x y : Option Val} (h : ovLtB y x = true)
    (xs ys : List (Option Val)) : keyLeB (x :: xs) (y :: ys) = false := by
  have hxy : ovLtB x y = false := ovLtB_asymm h
  have hne : x ≠ y := by
    intro he; subst he; simp [ovLtB_irrefl] at h
  simp [keyLeB, hxy, hne]

theorem keyLeB_refl (a : List (Option Val)) : keyLeB a a = true := by
  induction a with
  | nil => rfl
  | cons x xs ih => simp [keyLeB, ih]

theorem keyLeB_total (a b : List (Option Val)) :
    keyLeB a b = true ∨ keyLeB b a = true := by
  induction a generalizing b with
  | nil => left; rfl
  | cons x xs ih =>
    cases b with
    | nil => right; rfl
    | cons y ys =>
      rcases ov_trichotomy x y with h | h | h
      · exact Or.inl (keyLeB_cons_lt h xs ys)
      · subst h
        rcases ih ys with h | h
        · left; rw [keyLeB_cons_eq]; exact h
        · right; rw [keyLeB_cons_eq]; exact h
      · exact Or.inr (keyLeB_cons_lt h ys xs)

theorem keyLeB_trans {a b c : List (Option Val)} (h1 : keyLeB a b = true)
    (h2 : keyLeB b c = true) : keyLeB a c = true := by
  induction a generalizing b c with
  | nil => rfl
  | cons x xs ih =>
    cases b with
    | nil => simp [keyLeB] at h1
    | cons y ys =>
      cases c with
      | nil => simp [keyLeB] at h2
      | cons z zs =>
        rcases ov_trichotomy x y with hxy | hxy | hxy
        · rcases ov_trichotomy y z with hyz | hyz | hyz
          · exact keyLeB_cons_lt (ovLtB_trans hxy hyz) xs zs
          · subst hyz; exact keyLeB_cons_lt hxy xs zs
          · rw [keyLeB_cons_gt hyz] at h2; exact absurd h2 (by simp)
        · subst hxy
          rcases ov_trichotomy x z with hyz | hyz | hyz
          · exact keyLeB_cons_lt hyz xs zs
          · subst hyz
            rw [keyLeB_cons_eq] at h1 h2 ⊢
            exact ih h1 h2
          · rw [keyLeB_cons_gt hyz] at h2; exact absurd h2 (by simp)
        · rw [keyLeB_cons_gt hxy] at h1; exact absurd h1 (by simp)

/-- A DataFrame row: an association list from column names to nullable
cells.  `get` of an absent column is null. -/
abbrev Row : Type := List (String × Option Val)

/-- Value of column `c` in row `r` (`none` both for a null cell and for an
absent column; every row that the embedded operations build carries its
relation's full fixed column set). -/
def Row.get (r : Row) (c : String) : Option Val :=
  match List.lookup c r with
  | some v => v
  | none => none

/-- A row over column set `cols` with the cell of column `c` given by
`f c` — the shape of every row produced by a polars `select`. -/
def mkRow (cols : List String) (f : String → Option Val) : Row :=
  cols.map fun c => (c, f c)

/-- The all-null row over `cols`: how polars null-fills the missing side of
an outer join. -/
def nullRow (cols : List String) : Row :=
  mkRow cols fun _ => none

/-- `pl.coalesce([a, b])`: the first non-null among `a`, `b`. -/
def coalesce2 (a b : Option Val) : Option Val :=
  match a with
  | some v => some v
  | none => b

/-- The tuple of a row's values at the business-key columns. -/
def rowKey (ks : List String) (r : Row) : List (Option Val) :=
  ks.map r.get

/-- Key equality test of a polars equi-join: every key column non-null on
both sides and equal (null keys never match, the polars default). -/
def keysMatch (ks : List String) (l r : Row) : Bool :=
  ks.all fun k =>
    match l.get k, r.get k with
    | some a, some b => decide (a = b)
    | _, _ => false

/-- `existing.join(incoming, on=ks, how="full", suffix="_new")`
(`_update_*`): one joined row per matching left/right pair, plus the
null-extended unmatched left rows, plus the null-extended unmatched right
rows.  The joined row is the pair (left part, `_new`-suffixed right part);
both sides share the schema `cols`, so the unmatched side is
`nullRow cols`. -/
def fullJoin (cols ks : List String) (left right : List Row) :
    List (Row × Row) :=
  (left.flatMap fun l =>
    let ms := right.filter fun r => keysMatch ks l r
    if ms.isEmpty then [(l, nullRow cols)] else ms.map fun r => (l, r)) ++
  ((right.filter fun r => left.all fun l => !keysMatch ks l r).map
    fun r => (nullRow cols, r))

/-- The `select([*coalesce_exprs])` applied to a joined row: for every
column `c` in the update list, `pl.coalesce([pl.col(c + "_new"),
pl.col(c)])` — incoming (right) value preferred, existing (left) value as
fallback. -/
def coalesceSelect (cols : List String) (p : Row × Row) : Row :=
  mkRow cols fun c => coalesce2 (p.2.get c) (p.1.get c)

/-- `.sort(ks)`: stable sort of the rows by the key tuple, ascending,
nulls first. -/
def sortByKeys (ks : List String) (rows : List Row) : List Row :=
  rows.insertionSort fun a b => keyLeB (rowKey ks a) (rowKey ks b) = true

/-- Replace the value of column `c` by `v`, adding the column at the end
when absent — `with_columns(expr.alias(c))`. -/
def Row.setCol (r : Row) (c : String) (v : Option Val) : Row :=
  if r.any fun p => p.1 = c then
    r.map fun p => if p.1 = c then (c, v) else p
  else
    r ++ [(c, v)]

/-- Business-key columns of the `location` relation. -/
def locKeys : List String := ["name", "region", "country"]

/-- `update_columns` of `_update_location` (also the full `location`
schema). -/
def locCols : List String :=
  ["name", "region", "country", "lat", "lon", "tz_id", "localtime_epoch",
   "localtime"]

/-- `_update_location(new_location_df)` with the prior persisted state made
an explicit `Option` argument (`None` = `output/location.csv` absent).
Full outer join on the location key, coalesce every update column
preferring the incoming (`_new`) value; **no sort** is applied. -/
def updateLocation (existing : Option (List Row)) (incoming : List Row) :
    List Row :=
  match existing with
  | none => incoming
  | some ex => (fullJoin locCols locKeys ex incoming).map (coalesceSelect locCols)

/-- Business-key columns of the `current_temp` relation. -/
def ctKeys : List String := ["name", "region", "country", "created_date_local"]

/-- `update_columns` of `_update_current_temp` (also the full
`current_temp` schema). -/
def ctCols : List String :=
  ["name", "region", "country", "created_date_local", "created_date_utc",
   "last_updated", "temp_c", "temp_f", "is_day", "text", "code"]

/-- `_update_current_temp(new_current_df)`: full outer join on location +
observation date, coalesce preferring incoming, then sort by the key
columns. -/
def updateCurrentTemp (existing : Option (List Row)) (incoming : List Row) :
    List Row :=
  match existing with
  | none => incoming
  | some ex =>
      sortByKeys ctKeys
        ((fullJoin ctCols ctKeys ex incoming).map (coalesceSelect ctCols))

/-- Business-key columns of the `forecast_temp` relation. -/
def fcKeys : List String :=
  ["name", "region", "country", "created_date_local", "date"]

/-- `update_columns` of `_update_forecast` (also the full `forecast_temp`
schema). -/
def fcCols : List String :=
  ["name", "region", "country", "created_date_local", "date",
   "created_date_utc", "date_epoch", "maxtemp_c", "maxtemp_f", "mintemp_c",
   "mintemp_f", "avgtemp_c", "avgtemp_f", "maxwind_mph", "maxwind_kph",
   "totalprecip_mm", "totalprecip_in", "totalsnow_cm", "avgvis_km",
   "avgvis_miles", "avghumidity", "daily_will_it_rain",
   "daily_chance_of_rain", "daily_will_it_snow", "daily_chance_of_snow",
   "text", "code", "uv"]

/-- `_update_forecast(new_forecast_df)`: full outer join on location +
observation date + forecast day, coalesce preferring incoming, then sort by
the key columns. -/
def updateForecast (existing : Option (List Row)) (incoming : List Row) :
    List Row :=
  match existing with
  | none => incoming
  | some ex =>
      sortByKeys fcKeys
        ((fullJoin fcCols fcKeys ex incoming).map (coalesceSelect fcCols))

/-- `MS_PER_DAY`-based difference of two date cells.  The source computes
`((date1 - date2) / MS_PER_DAY).cast(pl.Int32)`; polars represents the
difference of two whole-day dates as an exact multiple of `MS_PER_DAY`
milliseconds, so the result is exactly the difference of the day counts,
computed here on the day-count representation.  Null if either date is
null (or not a date). -/
def dayDiffV : Option Val → Option Val → Option Val
  | some (.i x), some (.i y) => some (.i (x - y))
  | _, _ => none

/-- Difference of two rational (temperature) cells, null-propagating. -/
def qSubV : Option Val → Option Val → Option Val
  | some (.q x), some (.q y) => some (.q (x - y))
  | _, _ => none

/-- `.round(2)`: round to 2 decimal places. -/
def round2 (x : ℚ) : ℚ := (round (x * 100) : ℤ) / 100

/-- `.round(2)` lifted to cells: rounds a rational cell, passes nulls (and
non-numeric cells, which polars would reject upstream) through. -/
def round2Opt : Option Val → Option Val
  | some (.q x) => some (.q (round2 x))
  | v => v

/-- The recomputation `_update_merged` performs after the coalesce/sort:
`day_diff = (forecast_date - created_date_local) / MS_PER_DAY` and then
`forecast_current_temp_diff = when(day_diff == 0)
.then(current_temp_c - forecast_avgtemp_c).otherwise(None).round(2)`
(a null `day_diff` fails the `when` condition and takes the `otherwise`
branch, exactly as polars treats a null comparison). -/
def recomputeMergedRow (r : Row) : Row :=
  let r1 := r.setCol "day_diff"
    (dayDiffV (r.get "forecast_date") (r.get "created_date_local"))
  r1.setCol "forecast_current_temp_diff"
    (if r1.get "day_diff" = some (.i 0) then
      round2Opt (qSubV (r1.get "current_temp_c") (r1.get "forecast_avgtemp_c"))
    else none)

/-- Business-key columns of the `merged` relation. -/
def mgKeys : List String :=
  ["name", "region", "country", "created_date_local", "forecast_date"]

/-- `update_columns` of `_update_merged` (also the full `merged`
schema). -/
def mgCols : List String :=
  ["name", "region", "country", "created_date_local", "forecast_date",
   "created_date_utc", "current_temp_last_updated", "current_temp_c", "uv",
   "forecast_avgtemp_c", "forecast_maxtemp_c", "forecast_mintemp_c",
   "day_diff", "forecast_current_temp_diff", "daily_chance_of_rain",
   "daily_chance_of_snow", "forecast_maxwind_kph"]

/-- `_update_merged(new_merged_df)`: full outer join on location +
observation date + forecast day, coalesce preferring incoming, sort by the
key columns, then recompute `day_diff` and `forecast_current_temp_diff`
from the coalesced columns. -/
def updateMerged (existing : Option (List Row)) (incoming : List Row) :
    List Row :=
  match existing with
  | none => incoming
  | some ex =>
      (sortByKeys mgKeys
        ((fullJoin mgCols mgKeys ex incoming).map (coalesceSelect mgCols))).map
        recomputeMergedRow

/-- Business-key columns of the `stats` relation. -/
def stKeys : List String := ["name", "region", "country"]

/-- `update_columns` of `_update_stats` (the non-key columns). -/
def stUpdateCols : List String :=
  ["current_temp_c", "min_forecast", "max_forecast", "mean_forecast",
   "highest_temp_date", "min_temp", "max_temp"]

/-- The full `stats` schema. -/
def stCols : List String := stKeys ++ stUpdateCols

/-- The `select(["name", "region", "country", *coalesce_exprs])` of
`_update_stats`: the three key columns are taken **unsuffixed**, i.e. from
the existing (left) side of the join — not coalesced — followed by the
coalesced update columns. -/
def statsSelect (p : Row × Row) : Row :=
  (stKeys.map fun c => (c, p.1.get c)) ++
  (stUpdateCols.map fun c => (c, coalesce2 (p.2.get c) (p.1.get c)))

/-- `_update_stats(new_stats_df)`: full outer join on the location key,
select the left-side key columns plus the coalesced update columns, sort by
the key columns. -/
def updateStats (existing : Option (List Row)) (incoming : List Row) :
    List Row :=
  match existing with
  | none => incoming
  | some ex =>
      sortByKeys stKeys
        ((fullJoin stCols stKeys ex incoming).map statsSelect)

/-- `.dt.date()`: date (day count) of a millisecond datetime cell, flooring
toward earlier days (calendar semantics), null-propagating. -/
def toDateV : Option Val → Option Val
  | some (.i x) => some (.i (Int.fdiv x 86400000))
  | _ => none

/-- Key test of the `_stats_cal` left join: `left_on` columns of the
forecast row against `right_on` columns of the current row, pairwise
non-null and equal. -/
def joinOnMatch (leftOn rightOn : List String) (l r : Row) : Bool :=
  (leftOn.zip rightOn).all fun p =>
    match l.get p.1, r.get p.2 with
    | some a, some b => decide (a = b)
    | _, _ => false

/-- `forecast_df.join(current_temp_df, how="left", left_on=..,
right_on=..)`: every left (forecast) row is retained; unmatched rows get a
null-filled right side. -/
def leftJoin (rightCols lOn rOn : List String) (left right : List Row) :
    List (Row × Row) :=
  left.flatMap fun l =>
    let ms := right.filter fun r => joinOnMatch lOn rOn l r
    if ms.isEmpty then [(l, nullRow rightCols)] else ms.map fun r => (l, r)

/-- Columns of the preprocessed current-conditions batch inside
`_stats_cal` (the `current_temp` schema plus the derived `data_date`). -/
def ctDataCols : List String := ctCols ++ ["data_date"]

/-- One row of the `merged` relation from a joined (forecast, current)
pair: the `with_columns` computations of `day_diff` and
`forecast_current_temp_diff` followed by the `select`/`rename` of
`_stats_cal` (`date` → `forecast_date`, `last_updated` →
`current_temp_last_updated`, `temp_c` → `current_temp_c`, `avgtemp_c` →
`forecast_avgtemp_c`, `maxtemp_c` → `forecast_maxtemp_c`, `mintemp_c` →
`forecast_mintemp_c`, `maxwind_kph` → `forecast_maxwind_kph`).  Columns
shared by both inputs (`name`, `region`, `country`, `created_date_local`,
`created_date_utc`) are taken from the forecast (left) side, as the select
of the unsuffixed names does. -/
def mergedFromPair (p : Row × Row) : Row :=
  let f := p.1
  let c := p.2
  let dd := dayDiffV (f.get "date") (f.get "created_date_local")
  mkRow mgCols fun col =>
    match col with
    | "name" => f.get "name"
    | "region" => f.get "region"
    | "country" => f.get "country"
    | "created_date_local" => f.get "created_date_local"
    | "forecast_date" => f.get "date"
    | "created_date_utc" => f.get "created_date_utc"
    | "current_temp_last_updated" => c.get "last_updated"
    | "current_temp_c" => c.get "temp_c"
    | "uv" => f.get "uv"
    | "forecast_avgtemp_c" => f.get "avgtemp_c"
    | "forecast_maxtemp_c" => f.get "maxtemp_c"
    | "forecast_mintemp_c" => f.get "mintemp_c"
    | "day_diff" => dd
    | "forecast_current_temp_diff" =>
        if dd = some (.i 0) then
          round2Opt (qSubV (c.get "temp_c") (f.get "avgtemp_c"))
        else none
    | "daily_chance_of_rain" => f.get "daily_chance_of_rain"
    | "daily_chance_of_snow" => f.get "daily_chance_of_snow"
    | "forecast_maxwind_kph" => f.get "maxwind_kph"
    | _ => none

/-- Fuel-indexed worker for `statsGroups` (structural recursion on the
fuel, which starts at the row count and dominates the shrinking row
list). -/
def statsGroupsGo : Nat → List Row → List (Row × List Row)
  | _, [] => []
  | 0, _ :: _ => []
  | fuel + 1, r :: rs =>
      (r, rs.filter fun x => decide (rowKey stKeys x = rowKey stKeys r)) ::
        statsGroupsGo fuel
          (rs.filter fun x => !decide (rowKey stKeys x = rowKey stKeys r))

/-- `group_by(["name", "region", "country"])`: split the rows into groups
of equal location key, one group per key in order of first appearance,
each group as (first row, remaining rows in order). -/
def statsGroups (rows : List Row) : List (Row × List Row) :=
  statsGroupsGo rows.length rows

/-- `pl.col(c).min()` over a group: minimum of the non-null rational
cells, null when there are none (polars aggregation ignores nulls). -/
def minListQ (vs : List (Option Val)) : Option Val :=
  vs.foldr
    (fun v acc =>
      match v, acc with
      | some (.q x), some (.q y) => some (.q (min x y))
      | some (.q x), _ => some (.q x)
      | _, a => a)
    none

/-- `pl.col(c).max()` over a group, ignoring nulls. -/
def maxListQ (vs : List (Option Val)) : Option Val :=
  vs.foldr
    (fun v acc =>
      match v, acc with
      | some (.q x), some (.q y) => some (.q (max x y))
      | some (.q x), _ => some (.q x)
      | _, a => a)
    none

/-- `pl.col(c).mean().round(2)` over a group, ignoring nulls. -/
def meanListQ (vs : List (Option Val)) : Option Val :=
  let qs := vs.filterMap fun v =>
    match v with
    | some (.q x) => some x
    | _ => none
  if qs.isEmpty then none else some (.q (round2 (qs.sum / qs.length)))

/-- The `pl.when(current >= max)` test: both cells rational and non-null
and first ≥ second; a null comparison fails the `when` and takes the
`otherwise` branch. -/
def geB : Option Val → Option Val → Bool
  | some (.q x), some (.q y) => decide (y ≤ x)
  | _, _ => false

/-- `pl.col(c) == v` as a polars filter mask: true only when both sides
are non-null and equal (a null comparison is null, which `filter`
drops). -/
def valEqB : Option Val → Option Val → Bool
  | some a, some b => decide (a = b)
  | _, _ => false

/-- Columns of the aggregated stats rows before `min_temp`/`max_temp` are
appended. -/
def stAggCols : List String :=
  ["name", "region", "country", "current_temp_c", "min_forecast",
   "max_forecast", "mean_forecast", "highest_temp_date"]

/-- The `agg` of `_stats_cal` on one location group: `current_temp_c` is
the first row's value; `min_forecast`/`max_forecast`/`mean_forecast`
aggregate the forecast min/max/avg temperatures; `highest_temp_date` is
`created_date_local` (first) when the first current temperature is ≥ the
maximum forecast temperature, else the `forecast_date` of the first row
achieving the maximum. -/
def aggGroup (g : Row × List Row) : Row :=
  let rows := g.1 :: g.2
  let maxF := maxListQ (rows.map fun r => r.get "forecast_maxtemp_c")
  mkRow stAggCols fun col =>
    match col with
    | "name" => g.1.get "name"
    | "region" => g.1.get "region"
    | "country" => g.1.get "country"
    | "current_temp_c" => g.1.get "current_temp_c"
    | "min_forecast" => minListQ (rows.map fun r => r.get "forecast_mintemp_c")
    | "max_forecast" => maxF
    | "mean_forecast" => meanListQ (rows.map fun r => r.get "forecast_avgtemp_c")
    | "highest_temp_date" =>
        if geB (g.1.get "current_temp_c") maxF then
          g.1.get "created_date_local"
        else
          ((rows.filter fun x => valEqB (x.get "forecast_maxtemp_c") maxF).head?).bind
            fun x => x.get "forecast_date"
    | _ => none

/-- `pl.min_horizontal`: minimum of two cells ignoring nulls. -/
def minHoriz : Option Val → Option Val → Option Val
  | some (.q x), some (.q y) => some (.q (min x y))
  | some (.q x), none => some (.q x)
  | none, some (.q y) => some (.q y)
  | _, _ => none

/-- `pl.max_horizontal`: maximum of two cells ignoring nulls. -/
def maxHoriz : Option Val → Option Val → Option Val
  | some (.q x), some (.q y) => some (.q (max x y))
  | some (.q x), none => some (.q x)
  | none, some (.q y) => some (.q y)
  | _, _ => none

/-- `_stats_cal(current_temp_df, forecast_df)`: convert the forecast
`created_date_local` to a date and derive `data_date` from the current
`last_updated`; left-join forecasts to current conditions on location +
(observation date = data date); build the `merged` relation; group by
location and aggregate into the `stats` relation, appending
`min_temp`/`max_temp` as the horizontal min/max of the forecast bound and
the current temperature.  Returns `(merged, stats)`. -/
def statsCal (currentRows forecastRows : List Row) : List Row × List Row :=
  let fc := forecastRows.map fun r =>
    r.setCol "created_date_local" (toDateV (r.get "created_date_local"))
  let cur := currentRows.map fun r =>
    r.setCol "data_date" (toDateV (r.get "last_updated"))
  let joined := leftJoin ctDataCols
    ["name", "region", "country", "created_date_local"]
    ["name", "region", "country", "data_date"] fc cur
  let merged := joined.map mergedFromPair
  let stats := (statsGroups merged).map aggGroup
  let stats2 := stats.map fun s =>
    (s.setCol "min_temp" (minHoriz (s.get "min_forecast") (s.get "current_temp_c"))).setCol
      "max_temp" (maxHoriz (s.get "max_forecast") (s.get "current_temp_c"))
  (merged, stats2)

section RowLemmas

theorem get_nil (c : String) : Row.get [] c = none := rfl

theorem get_cons_self (c : String) (v : Option Val) (r : Row) :
    Row.get ((c, v) :: r) c = v := by
  simp [Row.get, List.lookup]

theorem get_cons_ne {c c' : String} (v : Option Val) (r : Row)
    (h : c' ≠ c) : Row.get ((c, v) :: r) c' = r.get c' := by
  have hbe : (c' == c) = false := beq_eq_false_iff_ne.mpr h
  simp [Row.get, List.lookup, hbe]

theorem get_mkRow {cols : List String} {c : String} (f : String → Option Val)
    (hc : c ∈ cols) : (mkRow cols f).get c = f c := by
  induction cols with
  | nil => cases hc
  | cons x xs ih =>
    by_cases hx : c = x
    · subst hx
      exact get_cons_self c (f c) (mkRow xs f)
    · have h : c ∈ xs := by
        rcases List.mem_cons.mp hc with h | h
        · exact absurd h hx
        · exact h
      rw [show mkRow (x :: xs) f = (x, f x) :: mkRow xs f from rfl,
        get_cons_ne _ _ hx]
      exact ih h

theorem get_mkRow_not_mem {cols : List String} {c : String}
    (f : String → Option Val) (hc : c ∉ cols) : (mkRow cols f).get c = none := by
  induction cols with
  | nil => rfl
  | cons x xs ih =>
    have hx : c ≠ x := fun h => hc (h ▸ List.mem_cons_self x xs)
    have hxs : c ∉ xs := fun h => hc (List.mem_cons_of_mem x h)
    rw [show mkRow (x :: xs) f = (x, f x) :: mkRow xs f from rfl,
      get_cons_ne _ _ hx]
    exact ih hxs

theorem get_nullRow (cols : List String) (c : String) :
    (nullRow cols).get c = none := by
  by_cases hc : c ∈ cols
  · exact get_mkRow _ hc
  · exact get_mkRow_not_mem _ hc

theorem get_append_right {r1 r2 : Row} {c : String}
    (h : ∀ p ∈ r1, p.1 ≠ c) : Row.get (r1 ++ r2) c = r2.get c := by
  induction r1 with
  | nil => rfl
  | cons p ps ih =>
    obtain ⟨pc, pv⟩ := p
    have hp : c ≠ pc := fun he => h (pc, pv) (List.mem_cons_self _ ps) he.symm
    have hps : ∀ q ∈ ps, q.1 ≠ c := fun q hq => h q (List.mem_cons_of_mem _ hq)
    rw [List.cons_append, get_cons_ne _ _ hp]
    exact ih hps

/-- The mapped update of `setCol` on a row that does contain the column. -/
theorem get_map_set_self {r : Row} {c : String} (v : Option Val)
    (h : r.any fun p => p.1 = c) :
    Row.get (r.map fun p => if p.1 = c then (c, v) else p) c = v := by
  induction r with
  | nil => simp at h
  | cons p ps ih =>
    obtain ⟨pc, pv⟩ := p
    by_cases hp : pc = c
    · simp only [List.map_cons, hp, eq_self_iff_true, if_true]
      exact get_cons_self c v _
    · have hps : ps.any fun q => q.1 = c := by
        simpa [List.any_cons, hp] using h
      have hc : c ≠ pc := fun he => hp he.symm
      simp only [List.map_cons, if_neg hp]
      rw [get_cons_ne _ _ hc]
      exact ih hps

theorem get_map_set_ne (r : Row) {c c' : String} (v : Option Val)
    (h : c' ≠ c) :
    Row.get (r.map fun p => if p.1 = c then (c, v) else p) c' = r.get c' := by
  induction r with
  | nil => rfl
  | cons p ps ih =>
    obtain ⟨pc, pv⟩ := p
    by_cases hp : pc = c
    · subst hp
      simp only [List.map_cons, eq_self_iff_true, if_true]
      rw [get_cons_ne _ _ h, get_cons_ne _ _ h]
      exact ih
    · by_cases hc' : c' = pc
      · subst hc'
        simp only [List.map_cons, if_neg hp]
        rw [get_cons_self, get_cons_self]
      · simp only [List.map_cons, if_neg hp]
        rw [get_cons_ne _ _ hc', get_cons_ne _ _ hc']
        exact ih

theorem get_setCol_self (r : Row) (c : String) (v : Option Val) :
    (r.setCol c v).get c = v := by
  unfold Row.setCol
  by_cases h : r.any fun p => p.1 = c
  · rw [if_pos h]
    exact get_map_set_self v h
  · rw [if_neg h]
    have hnc : ∀ p ∈ r, p.1 ≠ c := by
      intro p hp he
      exact h (List.any_eq_true.mpr ⟨p, hp, by simp [he]⟩)
    rw [get_append_right hnc]
    exact get_cons_self c v []

theorem get_setCol_ne (r : Row) {c c' : String} (v : Option Val)
    (h : c' ≠ c) : (r.setCol c v).get c' = r.get c' := by
  unfold Row.setCol
  by_cases ha : r.any fun p => p.1 = c
  · rw [if_pos ha]
    exact get_map_set_ne r v h
  · rw [if_neg ha]
    clear ha
    induction r with
    | nil =>
      rw [List.nil_append, get_cons_ne _ _ h]
    | cons p ps ih =>
      obtain ⟨pc, pv⟩ := p
      by_cases hc' : c' = pc
      · subst hc'
        rw [List.cons_append, get_cons_self, get_cons_self]
      · rw [List.cons_append, get_cons_ne _ _ hc', get_cons_ne _ _ hc']
        exact ih

end RowLemmas

section JoinLemmas

/-- All key columns of `r` are non-null. -/
def keysSome (ks : List String) (r : Row) : Prop :=
  ∀ k ∈ ks, (r.get k).isSome

instance (ks : List String) (r : Row) : Decidable (keysSome ks r) := by
  unfold keysSome; infer_instance

/-- The key tuples of `rows` are pairwise distinct. -/
def keysUnique (ks : List String) (rows : List Row) : Prop :=
  (rows.map (rowKey ks)).Nodup

instance (ks : List String) (rows : List Row) : Decidable (keysUnique ks rows) := by
  unfold keysUnique; infer_instance

theorem keysUnique_inj {ks : List String} {rows : List Row}
    (h : keysUnique ks rows) {a b : Row} (ha : a ∈ rows) (hb : b ∈ rows)
    (hk : rowKey ks a = rowKey ks b) : a = b :=
  List.inj_on_of_nodup_map h ha hb hk

theorem keysMatch_iff {ks : List String} {l r : Row} :
    keysMatch ks l r = true ↔
      ∀ k ∈ ks, ∃ v, l.get k = some v ∧ r.get k = some v := by
  unfold keysMatch
  rw [List.all_eq_true]
  constructor
  · intro h k hk
    have := h k hk
    cases hl : l.get k with
    | none => simp [hl] at this
    | some a =>
      cases hr : r.get k with
      | none => simp [hl, hr] at this
      | some b =>
        have hab : a = b := by
          simp only [hl, hr, decide_eq_true_eq] at this
          exact this
        exact ⟨a, rfl, congrArg some hab.symm⟩
  · intro h k hk
    rcases h k hk with ⟨v, hl, hr⟩
    simp [hl, hr]

theorem rowKey_eq_of_keysMatch {ks : List String} {l r : Row}
    (h : keysMatch ks l r = true) : rowKey ks l = rowKey ks r := by
  unfold rowKey
  apply List.map_congr_left
  intro k hk
  rcases keysMatch_iff.mp h k hk with ⟨v, hl, hr⟩
  rw [hl, hr]

theorem keysMatch_of_eq {ks : List String} {l r : Row}
    (hdef : keysSome ks l) (hk : rowKey ks l = rowKey ks r) :
    keysMatch ks l r = true := by
  apply keysMatch_iff.mpr
  intro k hkk
  rcases Option.isSome_iff_exists.mp (hdef k hkk) with ⟨v, hv⟩
  refine ⟨v, hv, ?_⟩
  have : l.get k = r.get k := by
    unfold rowKey at hk
    exact List.map_eq_map_iff.mp hk k hkk
  rw [← this, hv]

theorem keysSome_of_keysMatch_left {ks : List String} {l r : Row}
    (h : keysMatch ks l r = true) : keysSome ks l := by
  intro k hk
  rcases keysMatch_iff.mp h k hk with ⟨v, hl, _⟩
  simp [hl]

theorem keysSome_of_keysMatch_right {ks : List String} {l r : Row}
    (h : keysMatch ks l r = true) : keysSome ks r := by
  intro k hk
  rcases keysMatch_iff.mp h k hk with ⟨v, _, hr⟩
  simp [hr]

/-- Case analysis for membership in a full outer join: every joined pair is
a matching left/right pair, an unmatched left row null-extended on the
right, or an unmatched right row null-extended on the left. -/
theorem mem_fullJoin_elim {cols ks : List String} {L R : List Row}
    {p : Row × Row} (hp : p ∈ fullJoin cols ks L R) :
    (∃ l ∈ L, ∃ r ∈ R, keysMatch ks l r = true ∧ p = (l, r)) ∨
    (∃ l ∈ L, p = (l, nullRow cols) ∧ ∀ r ∈ R, keysMatch ks l r = false) ∨
    (∃ r ∈ R, p = (nullRow cols, r) ∧ ∀ l ∈ L, keysMatch ks l r = false) := by
  unfold fullJoin at hp
  rcases List.mem_append.mp hp with h | h
  · rcases List.mem_flatMap.mp h with ⟨l, hl, hmem⟩
    by_cases hemp : (R.filter fun r => keysMatch ks l r).isEmpty
    · right; left
      refine ⟨l, hl, ?_, ?_⟩
      · simpa [hemp] using hmem
      · intro r hr
        have := List.isEmpty_iff.mp hemp
        by_contra hm
        have hrf : r ∈ R.filter fun r => keysMatch ks l r :=
          List.mem_filter.mpr ⟨hr, by simpa using hm⟩
        rw [this] at hrf
        cases hrf
    · left
      simp only [hemp, if_false] at hmem
      rcases List.mem_map.mp hmem with ⟨r, hrf, hpr⟩
      have := List.mem_filter.mp hrf
      exact ⟨l, hl, r, this.1, by simpa using this.2, hpr.symm⟩
  · right; right
    rcases List.mem_map.mp h with ⟨r, hrf, hpr⟩
    have := List.mem_filter.mp hrf
    refine ⟨r, this.1, hpr.symm, ?_⟩
    intro l hl
    have := List.all_eq_true.mp this.2 l hl
    simpa using this

theorem mem_fullJoin_matched {cols ks : List String} {L R : List Row}
    {l r : Row} (hl : l ∈ L) (hr : r ∈ R) (hm : keysMatch ks l r = true) :
    (l, r) ∈ fullJoin cols ks L R := by
  unfold fullJoin
  apply List.mem_append.mpr
  left
  apply List.mem_flatMap.mpr
  refine ⟨l, hl, ?_⟩
  have hrf : r ∈ R.filter fun x => keysMatch ks l x :=
    List.mem_filter.mpr ⟨hr, by simpa using hm⟩
  have hemp : ¬ (R.filter fun x => keysMatch ks l x).isEmpty := by
    intro he
    rw [List.isEmpty_iff.mp he] at hrf
    cases hrf
  simp only [hemp, if_false]
  exact List.mem_map.mpr ⟨r, hrf, rfl⟩

theorem mem_fullJoin_left_only {cols ks : List String} {L R : List Row}
    {l : Row} (hl : l ∈ L) (hnm : ∀ r ∈ R, keysMatch ks l r = false) :
    (l, nullRow cols) ∈ fullJoin cols ks L R := by
  unfold fullJoin
  apply List.mem_append.mpr
  left
  apply List.mem_flatMap.mpr
  refine ⟨l, hl, ?_⟩
  have hemp : (R.filter fun x => keysMatch ks l x).isEmpty := by
    rw [List.isEmpty_iff, List.filter_eq_nil_iff]
    intro r hr
    simp [hnm r hr]
  simp [hemp]

theorem mem_fullJoin_right_only {cols ks : List String} {L R : List Row}
    {r : Row} (hr : r ∈ R) (hnm : ∀ l ∈ L, keysMatch ks l r = false) :
    (nullRow cols, r) ∈ fullJoin cols ks L R := by
  unfold fullJoin
  apply List.mem_append.mpr
  right
  apply List.mem_map.mpr
  refine ⟨r, List.mem_filter.mpr ⟨hr, ?_⟩, rfl⟩
  apply List.all_eq_true.mpr
  intro l hl
  simp [hnm l hl]

end JoinLemmas

section SortLemmas

theorem mem_sortByKeys {ks : List String} {rows : List Row} {a : Row} :
    a ∈ sortByKeys ks rows ↔ a ∈ rows := by
  unfold sortByKeys
  exact List.mem_insertionSort _

theorem sorted_sortByKeys (ks : List String) (rows : List Row) :
    (sortByKeys ks rows).Pairwise
      fun a b => keyLeB (rowKey ks a) (rowKey ks b) = true := by
  haveI ht : IsTotal Row fun a b => keyLeB (rowKey ks a) (rowKey ks b) = true :=
    ⟨fun a b => keyLeB_total (rowKey ks a) (rowKey ks b)⟩
  haveI htr : IsTrans Row fun a b => keyLeB (rowKey ks a) (rowKey ks b) = true :=
    ⟨fun _ _ _ h1 h2 => keyLeB_trans h1 h2⟩
  exact List.sorted_insertionSort _ rows

end SortLemmas

section CoalesceLemmas

theorem coalesce2_none_left (b : Option Val) : coalesce2 none b = b := rfl

theorem coalesce2_none_right (a : Option Val) : coalesce2 a none = a := by
  cases a <;> rfl

theorem coalesce2_some (v : Val) (b : Option Val) :
    coalesce2 (some v) b = some v := rfl

theorem get_coalesceSelect {cols : List String} {c : String} (p : Row × Row)
    (hc : c ∈ cols) :
    (coalesceSelect cols p).get c = coalesce2 (p.2.get c) (p.1.get c) :=
  get_mkRow _ hc

theorem rowKey_coalesceSelect {cols ks : List String}
    (hks : ∀ k ∈ ks, k ∈ cols) (p : Row × Row) :
    rowKey ks (coalesceSelect cols p) =
      ks.map fun k => coalesce2 (p.2.get k) (p.1.get k) := by
  unfold rowKey
  apply List.map_congr_left
  intro k hk
  exact get_coalesceSelect p (hks k hk)

theorem rowKey_coalesce_matched {cols ks : List String}
    (hks : ∀ k ∈ ks, k ∈ cols) {l r : Row} (hm : keysMatch ks l r = true) :
    rowKey ks (coalesceSelect cols (l, r)) = rowKey ks l := by
  rw [rowKey_coalesceSelect hks]
  apply List.map_congr_left
  intro k hk
  rcases keysMatch_iff.mp hm k hk with ⟨v, hl, hr⟩
  simp [hl, hr, coalesce2]

theorem rowKey_coalesce_left_only {cols ks : List String}
    (hks : ∀ k ∈ ks, k ∈ cols) (l : Row) :
    rowKey ks (coalesceSelect cols (l, nullRow cols)) = rowKey ks l := by
  rw [rowKey_coalesceSelect hks]
  apply List.map_congr_left
  intro k _
  rw [get_nullRow, coalesce2_none_left]

theorem rowKey_coalesce_right_only {cols ks : List String}
    (hks : ∀ k ∈ ks, k ∈ cols) (r : Row) :
    rowKey ks (coalesceSelect cols (nullRow cols, r)) = rowKey ks r := by
  rw [rowKey_coalesceSelect hks]
  apply List.map_congr_left
  intro k _
  rw [get_nullRow, coalesce2_none_right]

/-- Core characterization, update-row case: when the key of `e ∈ existing`
also occurs (as the key of `i`) in the incoming batch, every reconciled row
carrying that key consists, column by column, of the incoming value where
non-null and of the existing value elsewhere. -/
theorem reconcile_key_in_both {cols ks : List String}
    (hks : ∀ k ∈ ks, k ∈ cols) {ex inc : List Row}
    (hUex : keysUnique ks ex) (hUinc : keysUnique ks inc)
    {e i : Row} (he : e ∈ ex) (hi : i ∈ inc) (hdef : keysSome ks e)
    (hkey : rowKey ks e = rowKey ks i) {o : Row}
    (ho : o ∈ (fullJoin cols ks ex inc).map (coalesceSelect cols))
    (hko : rowKey ks o = rowKey ks e) :
    ∀ c ∈ cols, o.get c = coalesce2 (i.get c) (e.get c) := by
  rcases List.mem_map.mp ho with ⟨p, hp, hop⟩
  rcases mem_fullJoin_elim hp with ⟨l, hl, r, hr, hm, hpe⟩ | ⟨l, hl, hpe, hnm⟩ |
    ⟨r, hr, hpe, hnm⟩
  · subst hpe
    rw [← hop] at hko
    rw [rowKey_coalesce_matched hks hm] at hko
    have hle : l = e := keysUnique_inj hUex hl he hko
    subst hle
    have hri : r = i := by
      apply keysUnique_inj hUinc hr hi
      rw [← rowKey_eq_of_keysMatch hm, hko, hkey]
    subst hri
    intro c hc
    rw [← hop, get_coalesceSelect _ hc]
  · subst hpe
    rw [← hop, rowKey_coalesce_left_only hks] at hko
    have hle : l = e := keysUnique_inj hUex hl he hko
    subst hle
    have := hnm i hi
    rw [keysMatch_of_eq hdef hkey] at this
    cases this
  · subst hpe
    rw [← hop, rowKey_coalesce_right_only hks] at hko
    have hri : r = i := by
      apply keysUnique_inj hUinc hr hi
      rw [hko, hkey]
    subst hri
    have := hnm e he
    rw [keysMatch_of_eq hdef hkey] at this
    cases this

/-- Core characterization, existence: a key present in `existing` always
keys some reconciled row. -/
theorem reconcile_key_exists_of_existing {cols ks : List String}
    (hks : ∀ k ∈ ks, k ∈ cols) {ex inc : List Row} {e : Row} (he : e ∈ ex) :
    ∃ o ∈ (fullJoin cols ks ex inc).map (coalesceSelect cols),
      rowKey ks o = rowKey ks e := by
  by_cases hmatch : ∃ i ∈ inc, keysMatch ks e i = true
  · rcases hmatch with ⟨i, hi, hm⟩
    refine ⟨coalesceSelect cols (e, i), List.mem_map.mpr
      ⟨(e, i), mem_fullJoin_matched he hi hm, rfl⟩, ?_⟩
    exact rowKey_coalesce_matched hks hm
  · push_neg at hmatch
    have hnm : ∀ i ∈ inc, keysMatch ks e i = false := by
      intro i hi
      have := hmatch i hi
      cases h : keysMatch ks e i
      · rfl
      · exact absurd h this
    refine ⟨coalesceSelect cols (e, nullRow cols), List.mem_map.mpr
      ⟨(e, nullRow cols), mem_fullJoin_left_only he hnm, rfl⟩, ?_⟩
    exact rowKey_coalesce_left_only hks e

/-- Core characterization, survival case: when the key of `e ∈ existing`
does not occur in the incoming batch, every reconciled row carrying that
key equals `e` on every column. -/
theorem reconcile_key_only_existing {cols ks : List String}
    (hks : ∀ k ∈ ks, k ∈ cols) {ex inc : List Row}
    (hUex : keysUnique ks ex) {e : Row} (he : e ∈ ex) (hdef : keysSome ks e)
    (habs : ∀ i ∈ inc, rowKey ks i ≠ rowKey ks e) {o : Row}
    (ho : o ∈ (fullJoin cols ks ex inc).map (coalesceSelect cols))
    (hko : rowKey ks o = rowKey ks e) :
    ∀ c ∈ cols, o.get c = e.get c := by
  rcases List.mem_map.mp ho with ⟨p, hp, hop⟩
  rcases mem_fullJoin_elim hp with ⟨l, hl, r, hr, hm, hpe⟩ | ⟨l, hl, hpe, hnm⟩ |
    ⟨r, hr, hpe, hnm⟩
  · subst hpe
    rw [← hop, rowKey_coalesce_matched hks hm] at hko
    have hle : l = e := keysUnique_inj hUex hl he hko
    subst hle
    exact absurd ((rowKey_eq_of_keysMatch hm).symm.trans hko) (habs r hr)
  · subst hpe
    rw [← hop, rowKey_coalesce_left_only hks] at hko
    have hle : l = e := keysUnique_inj hUex hl he hko
    subst hle
    intro c hc
    rw [← hop, get_coalesceSelect _ hc]
    simp [get_nullRow, coalesce2_none_left]
  · subst hpe
    rw [← hop, rowKey_coalesce_right_only hks] at hko
    exact absurd hko (habs r hr)

end CoalesceLemmas

section StatsSelectLemmas

theorem get_mkRow_append {cols : List String} {c : String}
    (f : String → Option Val) (r2 : Row) (hc : c ∈ cols) :
    Row.get (mkRow cols f ++ r2) c = f c := by
  induction cols with
  | nil => cases hc
  | cons x xs ih =>
    by_cases hx : c = x
    · subst hx
      rw [show mkRow (c :: xs) f ++ r2 = (c, f c) :: (mkRow xs f ++ r2) from rfl,
        get_cons_self]
    · have h : c ∈ xs := by
        rcases List.mem_cons.mp hc with h | h
        · exact absurd h hx
        · exact h
      rw [show mkRow (x :: xs) f ++ r2 = (x, f x) :: (mkRow xs f ++ r2) from rfl,
        get_cons_ne _ _ hx]
      exact ih h

theorem get_mkRow_append_not {cols : List String} {c : String}
    (f : String → Option Val) (r2 : Row) (hc : c ∉ cols) :
    Row.get (mkRow cols f ++ r2) c = r2.get c := by
  apply get_append_right
  intro p hp
  rcases List.mem_map.mp hp with ⟨x, hx, hpx⟩
  intro he
  have hxc : x = c := by rw [← he, ← hpx]
  exact hc (hxc ▸ hx)

theorem statsSelect_eq (p : Row × Row) :
    statsSelect p =
      mkRow stKeys (fun c => p.1.get c) ++
        mkRow stUpdateCols (fun c => coalesce2 (p.2.get c) (p.1.get c)) := rfl

theorem get_statsSelect_key {c : String} (p : Row × Row) (hc : c ∈ stKeys) :
    (statsSelect p).get c = p.1.get c := by
  rw [statsSelect_eq]
  exact get_mkRow_append _ _ hc

theorem get_statsSelect_upd {c : String} (p : Row × Row) (hc1 : c ∉ stKeys)
    (hc2 : c ∈ stUpdateCols) :
    (statsSelect p).get c = coalesce2 (p.2.get c) (p.1.get c) := by
  rw [statsSelect_eq, get_mkRow_append_not _ _ hc1]
  exact get_mkRow _ hc2

theorem rowKey_statsSelect (p : Row × Row) :
    rowKey stKeys (statsSelect p) = rowKey stKeys p.1 := by
  unfold rowKey
  apply List.map_congr_left
  intro k hk
  exact get_statsSelect_key p hk

/-- Stats analogue of `reconcile_key_in_both`: a location key present in
both sides of `_update_stats` keys rows whose non-key columns are the
incoming-preferring coalesce of the two sides (the key columns come from
the matched left row and therefore also agree with `e`). -/
theorem stats_key_in_both {ex inc : List Row}
    (hUex : keysUnique stKeys ex) (hUinc : keysUnique stKeys inc)
    {e i : Row} (he : e ∈ ex) (hi : i ∈ inc) (hdef : keysSome stKeys e)
    (hkey : rowKey stKeys e = rowKey stKeys i) {o : Row}
    (ho : o ∈ (fullJoin stCols stKeys ex inc).map statsSelect)
    (hko : rowKey stKeys o = rowKey stKeys e) :
    (∀ c ∈ stKeys, o.get c = e.get c) ∧
      ∀ c ∈ stUpdateCols, c ∉ stKeys →
        o.get c = coalesce2 (i.get c) (e.get c) := by
  rcases List.mem_map.mp ho with ⟨p, hp, hop⟩
  rcases mem_fullJoin_elim hp with ⟨l, hl, r, hr, hm, hpe⟩ | ⟨l, hl, hpe, hnm⟩ |
    ⟨r, hr, hpe, hnm⟩
  · subst hpe
    rw [← hop, rowKey_statsSelect] at hko
    have hle : l = e := keysUnique_inj hUex hl he hko
    subst hle
    have hri : r = i := by
      apply keysUnique_inj hUinc hr hi
      rw [← rowKey_eq_of_keysMatch hm, hko, hkey]
    subst hri
    constructor
    · intro c hc
      rw [← hop, get_statsSelect_key _ hc]
    · intro c hc hck
      rw [← hop, get_statsSelect_upd _ hck hc]
  · subst hpe
    rw [← hop, rowKey_statsSelect] at hko
    have hle : l = e := keysUnique_inj hUex hl he hko
    subst hle
    have := hnm i hi
    rw [keysMatch_of_eq hdef hkey] at this
    cases this
  · subst hpe
    rw [← hop, rowKey_statsSelect] at hko
    have hname : Row.get e "name" = none := by
      have h1 : rowKey stKeys (nullRow stCols, r).1 =
          [none, none, none] := by
        simp [rowKey, stKeys, get_nullRow]
      rw [h1] at hko
      have : rowKey stKeys e = [Row.get e "name", Row.get e "region",
          Row.get e "country"] := by
        simp [rowKey, stKeys]
      rw [this] at hko
      exact (List.cons.injEq _ _ _ _ ▸ hko.symm).1
    have := hdef "name" (by simp [stKeys])
    rw [hname] at this
    cases this

/-- Stats analogue of `reconcile_key_only_existing`. -/
theorem stats_key_only_existing {ex inc : List Row}
    (hUex : keysUnique stKeys ex) {e : Row} (he : e ∈ ex)
    (hdef : keysSome stKeys e)
    (habs : ∀ i ∈ inc, rowKey stKeys i ≠ rowKey stKeys e) {o : Row}
    (ho : o ∈ (fullJoin stCols stKeys ex inc).map statsSelect)
    (hko : rowKey stKeys o = rowKey stKeys e) :
    (∀ c ∈ stKeys, o.get c = e.get c) ∧
      ∀ c ∈ stUpdateCols, c ∉ stKeys → o.get c = e.get c := by
  rcases List.mem_map.mp ho with ⟨p, hp, hop⟩
  rcases mem_fullJoin_elim hp with ⟨l, hl, r, hr, hm, hpe⟩ | ⟨l, hl, hpe, hnm⟩ |
    ⟨r, hr, hpe, hnm⟩
  · subst hpe
    rw [← hop, rowKey_statsSelect] at hko
    have hle : l = e := keysUnique_inj hUex hl he hko
    subst hle
    exact absurd ((rowKey_eq_of_keysMatch hm).symm.trans hko) (habs r hr)
  · subst hpe
    rw [← hop, rowKey_statsSelect] at hko
    have hle : l = e := keysUnique_inj hUex hl he hko
    subst hle
    constructor
    · intro c hc
      rw [← hop, get_statsSelect_key _ hc]
    · intro c hc hck
      rw [← hop, get_statsSelect_upd _ hck hc]
      simp [get_nullRow, coalesce2_none_left]
  · subst hpe
    rw [← hop, rowKey_statsSelect] at hko
    have hname : Row.get e "name" = none := by
      have h1 : rowKey stKeys (nullRow stCols, r).1 =
          [none, none, none] := by
        simp [rowKey, stKeys, get_nullRow]
      rw [h1] at hko
      have : rowKey stKeys e = [Row.get e "name", Row.get e "region",
          Row.get e "country"] := by
        simp [rowKey, stKeys]
      rw [this] at hko
      exact (List.cons.injEq _ _ _ _ ▸ hko.symm).1
    have := hdef "name" (by simp [stKeys])
    rw [hname] at this
    cases this

/-- Stats analogue of `reconcile_key_exists_of_existing`. -/
theorem stats_key_exists_of_existing {ex inc : List Row} {e : Row}
    (he : e ∈ ex) :
    ∃ o ∈ (fullJoin stCols stKeys ex inc).map statsSelect,
      rowKey stKeys o = rowKey stKeys e := by
  by_cases hmatch : ∃ i ∈ inc, keysMatch stKeys e i = true
  · rcases hmatch with ⟨i, hi, hm⟩
    refine ⟨statsSelect (e, i), List.mem_map.mpr
      ⟨(e, i), mem_fullJoin_matched he hi hm, rfl⟩, ?_⟩
    exact rowKey_statsSelect _
  · push_neg at hmatch
    have hnm : ∀ i ∈ inc, keysMatch stKeys e i = false := by
      intro i hi
      have := hmatch i hi
      cases h : keysMatch stKeys e i
      · rfl
      · exact absurd h this
    refine ⟨statsSelect (e, nullRow stCols), List.mem_map.mpr
      ⟨(e, nullRow stCols), mem_fullJoin_left_only he hnm, rfl⟩, ?_⟩
    exact rowKey_statsSelect _

end StatsSelectLemmas

section RecomputeLemmas

theorem get_recompute_ne {c : String} (r : Row) (h1 : c ≠ "day_diff")
    (h2 : c ≠ "forecast_current_temp_diff") :
    (recomputeMergedRow r).get c = r.get c := by
  unfold recomputeMergedRow
  rw [get_setCol_ne _ _ h2, get_setCol_ne _ _ h1]

theorem get_recompute_day_diff (r : Row) :
    (recomputeMergedRow r).get "day_diff" =
      dayDiffV (r.get "forecast_date") (r.get "created_date_local") := by
  unfold recomputeMergedRow
  rw [get_setCol_ne _ _ (by decide), get_setCol_self]

theorem get_recompute_diff (r : Row) :
    (recomputeMergedRow r).get "forecast_current_temp_diff" =
      (if dayDiffV (r.get "forecast_date") (r.get "created_date_local") =
          some (.i 0) then
        round2Opt (qSubV (r.get "current_temp_c") (r.get "forecast_avgtemp_c"))
      else none) := by
  unfold recomputeMergedRow
  rw [get_setCol_self, get_setCol_self, get_setCol_ne _ _ (by decide),
    get_setCol_ne _ _ (by decide)]

theorem rowKey_recompute (r : Row) :
    rowKey mgKeys (recomputeMergedRow r) = rowKey mgKeys r := by
  unfold rowKey
  apply List.map_congr_left
  intro k hk
  have hk' : k ∈ mgKeys := hk
  simp only [mgKeys, List.mem_cons, List.mem_singleton,
    List.not_mem_nil, or_false] at hk'
  rcases hk' with rfl | rfl | rfl | rfl | rfl <;>
    exact get_recompute_ne r (by decide) (by decide)

end RecomputeLemmas

section ExampleRows

/-- A persisted `stats` row for location ("A", "R", "C"). -/
def stRowA : Row :=
  [("name", some (.s "A")), ("region", some (.s "R")),
   ("country", some (.s "C")), ("current_temp_c", some (.q 10)),
   ("min_forecast", some (.q 5)), ("max_forecast", some (.q 20)),
   ("mean_forecast", some (.q 12)), ("highest_temp_date", some (.i 100)),
   ("min_temp", some (.q 5)), ("max_temp", some (.q 20))]

/-- An incoming `stats` row for the previously unseen location
("B", "R", "C"). -/
def stRowB : Row :=
  [("name", some (.s "B")), ("region", some (.s "R")),
   ("country", some (.s "C")), ("current_temp_c", some (.q 11)),
   ("min_forecast", some (.q 6)), ("max_forecast", some (.q 21)),
   ("mean_forecast", some (.q 13)), ("highest_temp_date", some (.i 101)),
   ("min_temp", some (.q 6)), ("max_temp", some (.q 21))]

/-- A persisted `merged` row: same-day forecast (`day_diff = 0`), current
temperature 15, forecast average 14, so
`forecast_current_temp_diff = 1.00`. -/
def mgRowE : Row :=
  [("name", some (.s "A")), ("region", some (.s "R")),
   ("country", some (.s "C")), ("created_date_local", some (.i 0)),
   ("forecast_date", some (.i 0)), ("created_date_utc", some (.i 0)),
   ("current_temp_last_updated", some (.i 0)),
   ("current_temp_c", some (.q 15)), ("uv", some (.q 1)),
   ("forecast_avgtemp_c", some (.q 14)),
   ("forecast_maxtemp_c", some (.q 20)),
   ("forecast_mintemp_c", some (.q 5)), ("day_diff", some (.i 0)),
   ("forecast_current_temp_diff", some (.q 1)),
   ("daily_chance_of_rain", some (.i 0)),
   ("daily_chance_of_snow", some (.i 0)),
   ("forecast_maxwind_kph", some (.q 10))]

/-- An incoming `merged` row with the same business key: the current
observation is missing (null `current_temp_c`, so its own
`forecast_current_temp_diff` is null) but it carries a fresh forecast
average of 13. -/
def mgRowI : Row :=
  [("name", some (.s "A")), ("region", some (.s "R")),
   ("country", some (.s "C")), ("created_date_local", some (.i 0)),
   ("forecast_date", some (.i 0)), ("created_date_utc", some (.i 0)),
   ("current_temp_last_updated", none), ("current_temp_c", none),
   ("uv", none), ("forecast_avgtemp_c", some (.q 13)),
   ("forecast_maxtemp_c", none), ("forecast_mintemp_c", none),
   ("day_diff", some (.i 0)), ("forecast_current_temp_diff", none),
   ("daily_chance_of_rain", none), ("daily_chance_of_snow", none),
   ("forecast_maxwind_kph", none)]

/-- A persisted `location` row for key ("A", "R", "C"). -/
def locRowA : Row :=
  [("name", some (.s "A")), ("region", some (.s "R")),
   ("country", some (.s "C")), ("lat", some (.q 1)), ("lon", some (.q 2)),
   ("tz_id", some (.s "tzA")), ("localtime_epoch", some (.i 10)),
   ("localtime", some (.i 10))]

/-- A persisted `location` row for key ("B", "R", "C"), which sorts after
("A", "R", "C"). -/
def locRowB : Row :=
  [("name", some (.s "B")), ("region", some (.s "R")),
   ("country", some (.s "C")), ("lat", some (.q 3)), ("lon", some (.q 4)),
   ("tz_id", some (.s "tzB")), ("localtime_epoch", some (.i 20)),
   ("localtime", some (.i 20))]

/-- An incoming `location` row for key ("A", "R", "C") with a fresh
latitude and a null longitude. -/
def locRowI : Row :=
  [("name", some (.s "A")), ("region", some (.s "R")),
   ("country", some (.s "C")), ("lat", some (.q 9)), ("lon", none),
   ("tz_id", some (.s "tzA2")), ("localtime_epoch", some (.i 30)),
   ("localtime", some (.i 30))]

end ExampleRows

/-- C8: when no prior persisted state exists (`existing` absent, i.e. the
CSV file is missing, as opposed to present-but-empty), every one of the
five reconcile operations returns the incoming relation verbatim — no
join, coalesce, or sort is applied. -/
theorem c8_first_run_passthrough (inc : List Row) :
    updateLocation none inc = inc ∧ updateCurrentTemp none inc = inc ∧
    updateForecast none inc = inc ∧ updateMerged none inc = inc ∧
    updateStats none inc = inc :=
  ⟨rfl, rfl, rfl, rfl, rfl⟩

/-- C2 (code evaluated at the failing input): reconciling the `stats`
relation with prior state for key ("A","R","C") and an incoming batch for
the new key ("B","R","C") produces **no** output row keyed
("B","R","C") — the new location's row comes out with null key columns,
because `_update_stats` selects the un-coalesced left-side key columns.
The claim's "exactly one row with that key" fails for the stats
relation. -/
theorem c2_stats_drops_incoming_key :
    rowKey stKeys stRowB =
      [some (.s "B"), some (.s "R"), some (.s "C")] ∧
    (updateStats (some [stRowA]) [stRowB]).length = 2 ∧
    ∀ o ∈ updateStats (some [stRowA]) [stRowB],
      rowKey stKeys o ≠ rowKey stKeys stRowB := by
  decide

/-- C3 (code evaluated at the failing input): after the same `stats`
reconciliation, the output contains a row whose business-key column
`name` is null — business-key columns are not never-null. -/
theorem c3_stats_null_key_column :
    ∃ o ∈ updateStats (some [stRowA]) [stRowB], o.get "name" = none := by
  decide

/-- C4 (code evaluated at the failing input): re-applying the `stats`
reconciliation with the same incoming batch duplicates the null-keyed row:
the first application yields 2 rows, the second 3, so reconciliation is
not idempotent for the stats relation. -/
theorem c4_stats_not_idempotent :
    (updateStats (some [stRowA]) [stRowB]).length = 2 ∧
    (updateStats (some (updateStats (some [stRowA]) [stRowB]))
        [stRowB]).length = 3 ∧
    updateStats (some (updateStats (some [stRowA]) [stRowB])) [stRowB] ≠
      updateStats (some [stRowA]) [stRowB] := by
  decide

/-- C1 counterexample: in the `merged` reconciliation the recomputation
overwrites the coalesced `forecast_current_temp_diff`.  For a key present
in both sides, with the incoming value of that update column null, the
claim demands the existing value (1.00); the code recomputes
`round2(current_temp_c − forecast_avgtemp_c) = round2(15 − 13) = 2.00`
from a mix of the existing current temperature and the incoming forecast
average. -/
theorem c1_counterexample_merged_recompute :
    rowKey mgKeys mgRowE = rowKey mgKeys mgRowI ∧
    Row.get mgRowI "forecast_current_temp_diff" = none ∧
    Row.get mgRowE "forecast_current_temp_diff" = some (.q 1) ∧
    ∃ o ∈ updateMerged (some [mgRowE]) [mgRowI],
      rowKey mgKeys o = rowKey mgKeys mgRowE ∧
      o.get "forecast_current_temp_diff" = some (.q 2) := by
  decide!

/-- C7 counterexample: `_update_location` applies no sort.  With prior
state holding keys ("B","R","C") then ("A","R","C") and an empty incoming
batch, the reconciled location relation keeps the join order B, A, which
is not ascending by the business key. -/
theorem c7_counterexample_location_unsorted :
    ¬ (updateLocation (some [locRowB, locRowA]) []).Pairwise
      (fun a b => keyLeB (rowKey locKeys a) (rowKey locKeys b) = true) := by
  decide

/-- C7 (amended): when prior persisted state exists, the reconciled
`current_temp`, `forecast_temp`, `merged` and `stats` relations are sorted
ascending by their business-key columns; `_update_location` alone applies
no sort, so the location relation keeps the join order instead. -/
theorem c7_amended_four_relations_sorted (ex inc : List Row) :
    (updateCurrentTemp (some ex) inc).Pairwise
      (fun a b => keyLeB (rowKey ctKeys a) (rowKey ctKeys b) = true) ∧
    (updateForecast (some ex) inc).Pairwise
      (fun a b => keyLeB (rowKey fcKeys a) (rowKey fcKeys b) = true) ∧
    (updateMerged (some ex) inc).Pairwise
      (fun a b => keyLeB (rowKey mgKeys a) (rowKey mgKeys b) = true) ∧
    (updateStats (some ex) inc).Pairwise
      (fun a b => keyLeB (rowKey stKeys a) (rowKey stKeys b) = true) := by
  refine ⟨sorted_sortByKeys _ _, sorted_sortByKeys _ _, ?_, sorted_sortByKeys _ _⟩
  show (List.map recomputeMergedRow _).Pairwise _
  apply List.Pairwise.map
  · intro a b hab
    rwa [rowKey_recompute, rowKey_recompute]
  · exact sorted_sortByKeys _ _

/-- The derived-column invariant of a `merged` row, as the code actually
establishes it: `day_diff` is the whole-day difference of the (non-null)
dates, null if either date is null, and `forecast_current_temp_diff` is
null unless `day_diff = 0`, in which case it is the rounded difference of
`current_temp_c` and `forecast_avgtemp_c` — itself null when either
operand is null. -/
def mergedDerivedInv (o : Row) : Prop :=
  o.get "day_diff" =
    dayDiffV (o.get "forecast_date") (o.get "created_date_local") ∧
  (o.get "day_diff" ≠ some (.i 0) →
    o.get "forecast_current_temp_diff" = none) ∧
  (o.get "day_diff" = some (.i 0) →
    o.get "forecast_current_temp_diff" =
      round2Opt (qSubV (o.get "current_temp_c") (o.get "forecast_avgtemp_c")))

instance (o : Row) : Decidable (mergedDerivedInv o) := by
  unfold mergedDerivedInv; infer_instance

/-- C5 counterexample: a reconciled `merged` row can have `day_diff = 0`
and a **null** `forecast_current_temp_diff` (here because the current
temperature is null, as happens for forecast rows with no matching current
observation), so "`forecast_current_temp_diff` is non-null iff
`day_diff == 0`" fails in the if direction. -/
theorem c5_counterexample_null_diff_on_same_day :
    ∃ o ∈ updateMerged (some [mgRowI]) [],
      o.get "day_diff" = some (.i 0) ∧
      o.get "forecast_current_temp_diff" = none := by
  decide

/-- C5 (amended): every row of the reconciled `merged` relation (prior
state present), and every row of the `merged` relation freshly derived by
`_stats_cal`, satisfies the derived-column invariant: `day_diff` is the
whole-day date difference, and `forecast_current_temp_diff` is null when
`day_diff ≠ 0` and equals the rounded temperature difference (null when an
operand is null) when `day_diff = 0`. -/
theorem c5_amended_derived_invariant :
    (∀ ex inc o, o ∈ updateMerged (some ex) inc → mergedDerivedInv o) ∧
    (∀ cur fc o, o ∈ (statsCal cur fc).1 → mergedDerivedInv o) := by
  constructor
  · intro ex inc o ho
    rcases List.mem_map.mp ho with ⟨r, _, hro⟩
    subst hro
    have hfd : (recomputeMergedRow r).get "forecast_date" =
        r.get "forecast_date" := get_recompute_ne r (by decide) (by decide)
    have hcd : (recomputeMergedRow r).get "created_date_local" =
        r.get "created_date_local" := get_recompute_ne r (by decide) (by decide)
    have hcur : (recomputeMergedRow r).get "current_temp_c" =
        r.get "current_temp_c" := get_recompute_ne r (by decide) (by decide)
    have havg : (recomputeMergedRow r).get "forecast_avgtemp_c" =
        r.get "forecast_avgtemp_c" := get_recompute_ne r (by decide) (by decide)
    refine ⟨?_, ?_, ?_⟩
    · rw [get_recompute_day_diff, hfd, hcd]
    · intro hne
      rw [get_recompute_day_diff] at hne
      rw [get_recompute_diff, if_neg hne]
    · intro heq
      rw [get_recompute_day_diff] at heq
      rw [hcur, havg, get_recompute_diff, if_pos heq]
  · intro cur fc o ho
    rcases List.mem_map.mp ho with ⟨p, _, hpo⟩
    subst hpo
    have hdd : (mergedFromPair p).get "day_diff" =
        dayDiffV (p.1.get "date") (p.1.get "created_date_local") :=
      get_mkRow _ (by decide)
    have hfd : (mergedFromPair p).get "forecast_date" = p.1.get "date" :=
      get_mkRow _ (by decide)
    have hcd : (mergedFromPair p).get "created_date_local" =
        p.1.get "created_date_local" := get_mkRow _ (by decide)
    have hcur : (mergedFromPair p).get "current_temp_c" = p.2.get "temp_c" :=
      get_mkRow _ (by decide)
    have havg : (mergedFromPair p).get "forecast_avgtemp_c" =
        p.1.get "avgtemp_c" := get_mkRow _ (by decide)
    have hdiff : (mergedFromPair p).get "forecast_current_temp_diff" =
        (if dayDiffV (p.1.get "date") (p.1.get "created_date_local") =
            some (.i 0) then
          round2Opt (qSubV (p.2.get "temp_c") (p.1.get "avgtemp_c"))
        else none) := get_mkRow _ (by decide)
    refine ⟨?_, ?_, ?_⟩
    · rw [hdd, hfd, hcd]
    · intro hne
      rw [hdd] at hne
      rw [hdiff, if_neg hne]
    · intro heq
      rw [hdd] at heq
      rw [hcur, havg, hdiff, if_pos heq]

theorem stUpdateCols_not_key : ∀ c ∈ stUpdateCols, c ∉ stKeys := by decide

/-- C1 (amended): for a business key present in both `existing` and
`incoming` (keys non-null, unique per side), the reconciled row for that
key takes, in every update column, the incoming value when non-null and
the existing value otherwise — **except** the two recomputed columns of
the `merged` relation (`day_diff`, `forecast_current_temp_diff`), which
the recompute step overwrites from the coalesced base columns. -/
theorem c1_amended_incoming_wins :
    (∀ ex inc e i, keysUnique locKeys ex → keysUnique locKeys inc →
      e ∈ ex → i ∈ inc → keysSome locKeys e →
      rowKey locKeys e = rowKey locKeys i →
      (∃ o ∈ updateLocation (some ex) inc,
        rowKey locKeys o = rowKey locKeys e) ∧
      ∀ o ∈ updateLocation (some ex) inc,
        rowKey locKeys o = rowKey locKeys e →
        ∀ c ∈ locCols, o.get c = coalesce2 (i.get c) (e.get c)) ∧
    (∀ ex inc e i, keysUnique ctKeys ex → keysUnique ctKeys inc →
      e ∈ ex → i ∈ inc → keysSome ctKeys e →
      rowKey ctKeys e = rowKey ctKeys i →
      (∃ o ∈ updateCurrentTemp (some ex) inc,
        rowKey ctKeys o = rowKey ctKeys e) ∧
      ∀ o ∈ updateCurrentTemp (some ex) inc,
        rowKey ctKeys o = rowKey ctKeys e →
        ∀ c ∈ ctCols, o.get c = coalesce2 (i.get c) (e.get c)) ∧
    (∀ ex inc e i, keysUnique fcKeys ex → keysUnique fcKeys inc →
      e ∈ ex → i ∈ inc → keysSome fcKeys e →
      rowKey fcKeys e = rowKey fcKeys i →
      (∃ o ∈ updateForecast (some ex) inc,
        rowKey fcKeys o = rowKey fcKeys e) ∧
      ∀ o ∈ updateForecast (some ex) inc,
        rowKey fcKeys o = rowKey fcKeys e →
        ∀ c ∈ fcCols, o.get c = coalesce2 (i.get c) (e.get c)) ∧
    (∀ ex inc e i, keysUnique mgKeys ex → keysUnique mgKeys inc →
      e ∈ ex → i ∈ inc → keysSome mgKeys e →
      rowKey mgKeys e = rowKey mgKeys i →
      (∃ o ∈ updateMerged (some ex) inc,
        rowKey mgKeys o = rowKey mgKeys e) ∧
      ∀ o ∈ updateMerged (some ex) inc,
        rowKey mgKeys o = rowKey mgKeys e →
        ∀ c ∈ mgCols, c ≠ "day_diff" → c ≠ "forecast_current_temp_diff" →
          o.get c = coalesce2 (i.get c) (e.get c)) ∧
    (∀ ex inc e i, keysUnique stKeys ex → keysUnique stKeys inc →
      e ∈ ex → i ∈ inc → keysSome stKeys e →
      rowKey stKeys e = rowKey stKeys i →
      (∃ o ∈ updateStats (some ex) inc,
        rowKey stKeys o = rowKey stKeys e) ∧
      ∀ o ∈ updateStats (some ex) inc,
        rowKey stKeys o = rowKey stKeys e →
        ∀ c ∈ stUpdateCols, o.get c = coalesce2 (i.get c) (e.get c)) := by
  refine ⟨?_, ?_, ?_, ?_, ?_⟩
  · intro ex inc e i hUex hUinc he hi hdef hkey
    constructor
    · exact reconcile_key_exists_of_existing (by decide) he
    · intro o ho hko
      exact reconcile_key_in_both (by decide) hUex hUinc he hi hdef hkey ho hko
  · intro ex inc e i hUex hUinc he hi hdef hkey
    constructor
    · rcases @reconcile_key_exists_of_existing ctCols ctKeys
        (by decide) ex inc e he with ⟨o, ho, hko⟩
      exact ⟨o, mem_sortByKeys.mpr ho, hko⟩
    · intro o ho hko
      exact reconcile_key_in_both (by decide) hUex hUinc he hi hdef hkey
        (mem_sortByKeys.mp ho) hko
  · intro ex inc e i hUex hUinc he hi hdef hkey
    constructor
    · rcases @reconcile_key_exists_of_existing fcCols fcKeys
        (by decide) ex inc e he with ⟨o, ho, hko⟩
      exact ⟨o, mem_sortByKeys.mpr ho, hko⟩
    · intro o ho hko
      exact reconcile_key_in_both (by decide) hUex hUinc he hi hdef hkey
        (mem_sortByKeys.mp ho) hko
  · intro ex inc e i hUex hUinc he hi hdef hkey
    constructor
    · rcases @reconcile_key_exists_of_existing mgCols mgKeys
        (by decide) ex inc e he with ⟨o, ho, hko⟩
      refine ⟨recomputeMergedRow o, ?_, ?_⟩
      · exact List.mem_map.mpr ⟨o, mem_sortByKeys.mpr ho, rfl⟩
      · rw [rowKey_recompute]; exact hko
    · intro o ho hko c hc hc1 hc2
      rcases List.mem_map.mp ho with ⟨r, hr, hro⟩
      subst hro
      rw [rowKey_recompute] at hko
      rw [get_recompute_ne r hc1 hc2]
      exact reconcile_key_in_both (by decide) hUex hUinc he hi hdef hkey
        (mem_sortByKeys.mp hr) hko c hc
  · intro ex inc e i hUex hUinc he hi hdef hkey
    constructor
    · rcases @stats_key_exists_of_existing ex inc e he with ⟨o, ho, hko⟩
      exact ⟨o, mem_sortByKeys.mpr ho, hko⟩
    · intro o ho hko c hc
      exact (stats_key_in_both hUex hUinc he hi hdef hkey
        (mem_sortByKeys.mp ho) hko).2 c hc (stUpdateCols_not_key c hc)

/-- C6: for a business key present only in `existing` (absent from the
incoming batch), the reconciled row for that key equals the existing row
in every column of the relation — including, for the `merged` relation,
the recomputed `day_diff` and `forecast_current_temp_diff`, provided the
persisted existing row satisfies the derived-column invariant that every
pipeline-produced `merged` relation satisfies. -/
theorem c6_historical_key_survival :
    (∀ ex inc e, keysUnique locKeys ex → e ∈ ex → keysSome locKeys e →
      (∀ i ∈ inc, rowKey locKeys i ≠ rowKey locKeys e) →
      (∃ o ∈ updateLocation (some ex) inc,
        rowKey locKeys o = rowKey locKeys e) ∧
      ∀ o ∈ updateLocation (some ex) inc,
        rowKey locKeys o = rowKey locKeys e →
        ∀ c ∈ locCols, o.get c = e.get c) ∧
    (∀ ex inc e, keysUnique ctKeys ex → e ∈ ex → keysSome ctKeys e →
      (∀ i ∈ inc, rowKey ctKeys i ≠ rowKey ctKeys e) →
      (∃ o ∈ updateCurrentTemp (some ex) inc,
        rowKey ctKeys o = rowKey ctKeys e) ∧
      ∀ o ∈ updateCurrentTemp (some ex) inc,
        rowKey ctKeys o = rowKey ctKeys e →
        ∀ c ∈ ctCols, o.get c = e.get c) ∧
    (∀ ex inc e, keysUnique fcKeys ex → e ∈ ex → keysSome fcKeys e →
      (∀ i ∈ inc, rowKey fcKeys i ≠ rowKey fcKeys e) →
      (∃ o ∈ updateForecast (some ex) inc,
        rowKey fcKeys o = rowKey fcKeys e) ∧
      ∀ o ∈ updateForecast (some ex) inc,
        rowKey fcKeys o = rowKey fcKeys e →
        ∀ c ∈ fcCols, o.get c = e.get c) ∧
    (∀ ex inc e, keysUnique mgKeys ex → e ∈ ex → keysSome mgKeys e →
      (∀ i ∈ inc, rowKey mgKeys i ≠ rowKey mgKeys e) →
      mergedDerivedInv e →
      (∃ o ∈ updateMerged (some ex) inc,
        rowKey mgKeys o = rowKey mgKeys e) ∧
      ∀ o ∈ updateMerged (some ex) inc,
        rowKey mgKeys o = rowKey mgKeys e →
        ∀ c ∈ mgCols, o.get c = e.get c) ∧
    (∀ ex inc e, keysUnique stKeys ex → e ∈ ex → keysSome stKeys e →
      (∀ i ∈ inc, rowKey stKeys i ≠ rowKey stKeys e) →
      (∃ o ∈ updateStats (some ex) inc,
        rowKey stKeys o = rowKey stKeys e) ∧
      ∀ o ∈ updateStats (some ex) inc,
        rowKey stKeys o = rowKey stKeys e →
        ∀ c ∈ stCols, o.get c = e.get c) := by
  refine ⟨?_, ?_, ?_, ?_, ?_⟩
  · intro ex inc e hUex he hdef habs
    constructor
    · exact reconcile_key_exists_of_existing (by decide) he
    · intro o ho hko
      exact reconcile_key_only_existing (by decide) hUex he hdef habs ho hko
  · intro ex inc e hUex he hdef habs
    constructor
    · rcases @reconcile_key_exists_of_existing ctCols ctKeys
        (by decide) ex inc e he with ⟨o, ho, hko⟩
      exact ⟨o, mem_sortByKeys.mpr ho, hko⟩
    · intro o ho hko
      exact reconcile_key_only_existing (by decide) hUex he hdef habs
        (mem_sortByKeys.mp ho) hko
  · intro ex inc e hUex he hdef habs
    constructor
    · rcases @reconcile_key_exists_of_existing fcCols fcKeys
        (by decide) ex inc e he with ⟨o, ho, hko⟩
      exact ⟨o, mem_sortByKeys.mpr ho, hko⟩
    · intro o ho hko
      exact reconcile_key_only_existing (by decide) hUex he hdef habs
        (mem_sortByKeys.mp ho) hko
  · intro ex inc e hUex he hdef habs hinv
    constructor
    · rcases @reconcile_key_exists_of_existing mgCols mgKeys
        (by decide) ex inc e he with ⟨o, ho, hko⟩
      refine ⟨recomputeMergedRow o, ?_, ?_⟩
      · exact List.mem_map.mpr ⟨o, mem_sortByKeys.mpr ho, rfl⟩
      · rw [rowKey_recompute]; exact hko
    · intro o ho hko c hc
      rcases List.mem_map.mp ho with ⟨r, hr, hro⟩
      subst hro
      rw [rowKey_recompute] at hko
      have hre : ∀ c ∈ mgCols, r.get c = e.get c :=
        reconcile_key_only_existing (by decide) hUex he hdef habs
          (mem_sortByKeys.mp hr) hko
      by_cases hdd : c = "day_diff"
      · subst hdd
        rw [get_recompute_day_diff, hre "forecast_date" (by decide),
          hre "created_date_local" (by decide)]
        exact hinv.1.symm
      · by_cases hdf : c = "forecast_current_temp_diff"
        · subst hdf
          rw [get_recompute_diff, hre "forecast_date" (by decide),
            hre "created_date_local" (by decide),
            hre "current_temp_c" (by decide),
            hre "forecast_avgtemp_c" (by decide), ← hinv.1]
          by_cases h0 : e.get "day_diff" = some (.i 0)
          · rw [if_pos h0, (hinv.2.2 h0)]
          · rw [if_neg h0, (hinv.2.1 h0)]
        · rw [get_recompute_ne r hdd hdf]
          exact hre c hc
  · intro ex inc e hUex he hdef habs
    constructor
    · rcases @stats_key_exists_of_existing ex inc e he with ⟨o, ho, hko⟩
      exact ⟨o, mem_sortByKeys.mpr ho, hko⟩
    · intro o ho hko c hc
      have h2 := stats_key_only_existing hUex he hdef habs
        (mem_sortByKeys.mp ho) hko
      by_cases hck : c ∈ stKeys
      · exact h2.1 c hck
      · have hcu : c ∈ stUpdateCols := by
          rcases List.mem_append.mp (by simpa [stCols] using hc) with h | h
          · exact absurd h hck
          · exact h
        exact h2.2 c hcu hck

/-- Maximum of a list of rationals, `none` on the empty list. -/
def listMaxQ : List ℚ → Option ℚ :=
  List.foldr
    (fun x acc =>
      match acc with
      | none => some x
      | some y => some (max x y))
    none

/-- The §3 rule for `stats.highest_temp_date` as the spec words it, over
one location's forecast history given as (forecast day, max forecast
temperature) pairs in order: the observation date when the current
temperature is at least the maximum forecast temperature over that
history, else the first forecast day achieving that maximum. -/
def specHighest (curTemp : ℚ) (created : ℤ) (days : List (ℤ × ℚ)) :
    Option ℤ :=
  match listMaxQ (days.map Prod.snd) with
  | none => some created
  | some m =>
      if m ≤ curTemp then some created
      else ((days.filter fun p => p.2 = m).head?).map Prod.fst

section C9Rows

/-- Batch 1 forecast row: observation day 1 (86,400,000 ms), forecast day
1, max temperature 20. -/
def c9fc1a : Row :=
  [("name", some (.s "L")), ("region", some (.s "R")),
   ("country", some (.s "C")), ("created_date_local", some (.i 86400000)),
   ("date", some (.i 1)), ("maxtemp_c", some (.q 20))]

/-- Batch 1 forecast row: observation day 1, forecast day 2, max
temperature 30 — the historical maximum. -/
def c9fc1b : Row :=
  [("name", some (.s "L")), ("region", some (.s "R")),
   ("country", some (.s "C")), ("created_date_local", some (.i 86400000)),
   ("date", some (.i 2)), ("maxtemp_c", some (.q 30))]

/-- Batch 1 current conditions: observed on day 1, temperature 10. -/
def c9cur1 : Row :=
  [("name", some (.s "L")), ("region", some (.s "R")),
   ("country", some (.s "C")), ("last_updated", some (.i 86400000)),
   ("temp_c", some (.q 10))]

/-- Batch 2 forecast row: observation day 3 (259,200,000 ms), forecast
day 3, max temperature 20. -/
def c9fc2 : Row :=
  [("name", some (.s "L")), ("region", some (.s "R")),
   ("country", some (.s "C")), ("created_date_local", some (.i 259200000)),
   ("date", some (.i 3)), ("maxtemp_c", some (.q 20))]

/-- Batch 2 current conditions: observed on day 3, temperature 25 —
above batch 2's forecasts but below the historical maximum 30. -/
def c9cur2 : Row :=
  [("name", some (.s "L")), ("region", some (.s "R")),
   ("country", some (.s "C")), ("last_updated", some (.i 259200000)),
   ("temp_c", some (.q 25))]

end C9Rows

theorem listMaxQ_eq_none {qs : List ℚ} (h : listMaxQ qs = none) : qs = [] := by
  cases qs with
  | nil => rfl
  | cons x xs =>
    unfold listMaxQ at h
    rw [List.foldr_cons] at h
    cases hfold : List.foldr
        (fun x acc =>
          match acc with
          | none => some x
          | some y => some (max x y))
        none xs <;> simp [hfold] at h

theorem maxListQ_of_shape {os : List (Option Val)} {qs : List ℚ}
    (h : os = qs.map fun q => some (.q q)) :
    maxListQ os = (listMaxQ qs).map Val.q := by
  subst h
  induction qs with
  | nil => rfl
  | cons q qs ih =>
    unfold maxListQ at ih ⊢
    unfold listMaxQ
    rw [List.map_cons, List.foldr_cons, ih, List.foldr_cons]
    cases hfold : List.foldr
        (fun x acc =>
          match acc with
          | none => some x
          | some y => some (max x y))
        none qs with
    | none =>
      have hl : listMaxQ qs = none := hfold
      rw [hl]
      rfl
    | some y =>
      have hl : listMaxQ qs = some y := hfold
      rw [hl]
      rfl

theorem filterMax_of_shape {m : ℚ} : ∀ {rows : List Row} {days : List (ℤ × ℚ)},
    (rows.map fun r =>
      (r.get "forecast_date", r.get "forecast_maxtemp_c")) =
      (days.map fun p => (some (.i p.1), some (.q p.2))) →
    (((rows.filter fun x =>
        valEqB (x.get "forecast_maxtemp_c") (some (.q m))).head?).bind
      fun x => x.get "forecast_date") =
      (((days.filter fun p => p.2 = m).head?).map fun p => Val.i p.1) := by
  intro rows
  induction rows with
  | nil =>
    intro days h
    have : days = [] := by
      cases days with
      | nil => rfl
      | cons d ds => simp at h
    subst this
    rfl
  | cons r rs ih =>
    intro days h
    cases days with
    | nil => simp at h
    | cons d ds =>
      simp only [List.map_cons, List.cons.injEq, Prod.mk.injEq] at h
      obtain ⟨⟨hfd, hmt⟩, hrest⟩ := h
      by_cases hdm : d.2 = m
      · subst hdm
        have hval : valEqB (r.get "forecast_maxtemp_c") (some (.q d.2)) = true := by
          rw [hmt]
          simp [valEqB]
        rw [List.filter_cons, if_pos (by simpa using hval),
          List.filter_cons, if_pos (by simp)]
        simp only [List.head?_cons, Option.bind_some, Option.map_some']
        exact hfd
      · have hval : valEqB (r.get "forecast_maxtemp_c") (some (.q m)) = false := by
          rw [hmt]
          simp [valEqB, hdm]
        rw [List.filter_cons, if_neg (by simp [hval]),
          List.filter_cons, if_neg (by simpa using hdm)]
        exact ih hrest

/-- The aggregation's `highest_temp_date` follows the spec's §3 rule
applied to the **group's own** (batch-local) forecast days. -/
theorem aggGroup_highest_spec (g : Row × List Row) (days : List (ℤ × ℚ))
    (curT : ℚ) (created : ℤ)
    (hshape : ((g.1 :: g.2).map fun r =>
        (r.get "forecast_date", r.get "forecast_maxtemp_c")) =
      (days.map fun p => (some (.i p.1), some (.q p.2))))
    (hcur : g.1.get "current_temp_c" = some (.q curT))
    (hcreated : g.1.get "created_date_local" = some (.i created)) :
    (aggGroup g).get "highest_temp_date" =
      Option.map Val.i (specHighest curT created days) := by
  have hget : (aggGroup g).get "highest_temp_date" =
      (if geB (g.1.get "current_temp_c")
          (maxListQ ((g.1 :: g.2).map fun r => r.get "forecast_maxtemp_c")) then
        g.1.get "created_date_local"
      else
        ((((g.1 :: g.2).filter fun x =>
            valEqB (x.get "forecast_maxtemp_c")
              (maxListQ ((g.1 :: g.2).map fun r =>
                r.get "forecast_maxtemp_c"))).head?).bind
          fun x => x.get "forecast_date")) :=
    get_mkRow _ (by decide)
  have hmt : ((g.1 :: g.2).map fun r => r.get "forecast_maxtemp_c") =
      ((days.map Prod.snd).map fun q => some (.q q)) := by
    have h2 := congrArg (List.map Prod.snd) hshape
    simpa [List.map_map, Function.comp] using h2
  have hmax : maxListQ ((g.1 :: g.2).map fun r => r.get "forecast_maxtemp_c") =
      (listMaxQ (days.map Prod.snd)).map Val.q := maxListQ_of_shape hmt
  cases hm : listMaxQ (days.map Prod.snd) with
  | none =>
    have hdays : days = [] := List.map_eq_nil_iff.mp (listMaxQ_eq_none hm)
    subst hdays
    simp at hshape
  | some m =>
    have hmax2 : maxListQ ((g.1 :: g.2).map fun r =>
        r.get "forecast_maxtemp_c") = some (.q m) := by
      rw [hmax, hm]
      rfl
    have hspec : specHighest curT created days =
        if m ≤ curT then some created
        else ((days.filter fun p => p.2 = m).head?).map Prod.fst := by
      simp only [specHighest, hm]
    rw [hspec]
    by_cases hle : m ≤ curT
    · rw [hget, hmax2, hcur, if_pos (by simp [geB, hle]), hcreated, if_pos hle]
      rfl
    · rw [hget, hmax2, hcur, if_neg (by simp [geB, hle]), if_neg hle]
      have := @filterMax_of_shape m _ _ hshape
      rw [this]
      cases ((days.filter fun p => p.2 = m).head?) <;> rfl

/-- Decomposition of a freshly derived stats row: it comes from one
location group of the batch's merged rows, its aggregate columns are those
of `aggGroup` on that group, and `min_temp`/`max_temp` are the appended
horizontal min/max. -/
theorem mem_statsCal_snd {cur fc : List Row} {s : Row}
    (hs : s ∈ (statsCal cur fc).2) :
    ∃ g ∈ statsGroups (statsCal cur fc).1,
      s.get "highest_temp_date" = (aggGroup g).get "highest_temp_date" ∧
      s.get "min_forecast" = (aggGroup g).get "min_forecast" ∧
      s.get "max_forecast" = (aggGroup g).get "max_forecast" ∧
      s.get "current_temp_c" = (aggGroup g).get "current_temp_c" ∧
      s.get "min_temp" =
        minHoriz ((aggGroup g).get "min_forecast")
          ((aggGroup g).get "current_temp_c") ∧
      s.get "max_temp" =
        maxHoriz ((aggGroup g).get "max_forecast")
          ((aggGroup g).get "current_temp_c") := by
  rcases List.mem_map.mp hs with ⟨s0, hs0, hss⟩
  rcases List.mem_map.mp hs0 with ⟨g, hg, hs0g⟩
  subst hs0g
  subst hss
  refine ⟨g, hg, ?_, ?_, ?_, ?_, ?_, ?_⟩
  · rw [get_setCol_ne _ _ (by decide), get_setCol_ne _ _ (by decide)]
  · rw [get_setCol_ne _ _ (by decide), get_setCol_ne _ _ (by decide)]
  · rw [get_setCol_ne _ _ (by decide), get_setCol_ne _ _ (by decide)]
  · rw [get_setCol_ne _ _ (by decide), get_setCol_ne _ _ (by decide)]
  · rw [get_setCol_ne _ _ (by decide), get_setCol_self]
  · rw [get_setCol_self]

/-- C9 counterexample: run batch 1 (forecast max 30 on day 2, current 10)
and then batch 2 (forecast max 20 on day 3, current 25) through
derivation and stats reconciliation.  The reconciled `highest_temp_date`
is day 3 (batch 2's `created_date_local`, because 25 ≥ 20 *within that
batch*), but the claim's across-history rule demands day 2, since the
maximum forecast temperature across history is 30 > 25, first achieved on
day 2. -/
theorem c9_counterexample_history_forgotten :
    (∃ o ∈ updateStats (some (statsCal [c9cur1] [c9fc1a, c9fc1b]).2)
        (statsCal [c9cur2] [c9fc2]).2,
      rowKey stKeys o = [some (.s "L"), some (.s "R"), some (.s "C")] ∧
      o.get "highest_temp_date" = some (.i 3)) ∧
    specHighest 25 3 [(1, 20), (2, 30), (3, 20)] = some 2 ∧
    (3 : ℤ) ≠ 2 := by
  decide!

/-- C9 (amended): the reconciled `highest_temp_date` of a location key
present in the incoming batch is the batch's own value (the incoming
non-null value wins the coalesce), and that value follows the §3 rule
computed over the **incoming batch only** — `created_date_local` when the
batch's current temperature is at least the batch's maximum forecast
temperature, else the first batch forecast day achieving that maximum —
not over the accumulated history. -/
theorem c9_amended_batch_local_highest :
    (∀ ex inc e i, keysUnique stKeys ex → keysUnique stKeys inc →
      e ∈ ex → i ∈ inc → keysSome stKeys e →
      rowKey stKeys e = rowKey stKeys i →
      (i.get "highest_temp_date").isSome →
      ∀ o ∈ updateStats (some ex) inc, rowKey stKeys o = rowKey stKeys e →
        o.get "highest_temp_date" = i.get "highest_temp_date") ∧
    (∀ cur fc s, s ∈ (statsCal cur fc).2 →
      ∃ g ∈ statsGroups (statsCal cur fc).1,
        ∀ days curT created,
          ((g.1 :: g.2).map fun r =>
            (r.get "forecast_date", r.get "forecast_maxtemp_c")) =
            (days.map fun p => (some (.i p.1), some (.q p.2))) →
          g.1.get "current_temp_c" = some (.q curT) →
          g.1.get "created_date_local" = some (.i created) →
          s.get "highest_temp_date" =
            Option.map Val.i (specHighest curT created days)) := by
  constructor
  · intro ex inc e i hUex hUinc he hi hdef hkey hsome o ho hko
    have h2 := (stats_key_in_both hUex hUinc he hi hdef hkey
      (mem_sortByKeys.mp ho) hko).2 "highest_temp_date" (by decide) (by decide)
    rcases Option.isSome_iff_exists.mp hsome with ⟨v, hv⟩
    rw [h2, hv, coalesce2_some]
  · intro cur fc s hs
    rcases mem_statsCal_snd hs with ⟨g, hg, hh, _, _, _, _, _⟩
    exact ⟨g, hg, fun days curT created hshape hcur hcreated =>
      hh.trans (aggGroup_highest_spec g days curT created hshape hcur hcreated)⟩

/-- The cell is null or a rational — the shape every numeric temperature
column has in typed batch data. -/
def qOrNoneB : Option Val → Bool
  | none => true
  | some (.q _) => true
  | _ => false

/-- The cell is a non-null rational. -/
def isQB : Option Val → Bool
  | some (.q _) => true
  | _ => false

/-- `min_temp ≤ min_forecast` whenever `min_forecast` is non-null (and
`min_temp` is then non-null too). -/
def statsMinBoundB (r : Row) : Bool :=
  match r.get "min_forecast", r.get "min_temp" with
  | some (.q a), some (.q b) => decide (b ≤ a)
  | some (.q _), _ => false
  | _, _ => true

/-- Propositional form of `statsMinBoundB`. -/
def statsMinBound (r : Row) : Prop := statsMinBoundB r = true

instance (r : Row) : Decidable (statsMinBound r) := by
  unfold statsMinBound; infer_instance

/-- `max_temp ≥ max_forecast` whenever `max_forecast` is non-null (and
`max_temp` is then non-null too). -/
def statsMaxBoundB (r : Row) : Bool :=
  match r.get "max_forecast", r.get "max_temp" with
  | some (.q a), some (.q b) => decide (a ≤ b)
  | some (.q _), _ => false
  | _, _ => true

/-- Propositional form of `statsMaxBoundB`. -/
def statsMaxBound (r : Row) : Prop := statsMaxBoundB r = true

instance (r : Row) : Decidable (statsMaxBound r) := by
  unfold statsMaxBound; infer_instance

theorem statsMinBound_of_gets {o r : Row}
    (hmf : o.get "min_forecast" = r.get "min_forecast")
    (hmt : o.get "min_temp" = r.get "min_temp") (h : statsMinBound r) :
    statsMinBound o := by
  unfold statsMinBound statsMinBoundB at h ⊢
  rw [hmf, hmt]
  exact h

theorem statsMaxBound_of_gets {o r : Row}
    (hmf : o.get "max_forecast" = r.get "max_forecast")
    (hmt : o.get "max_temp" = r.get "max_temp") (h : statsMaxBound r) :
    statsMaxBound o := by
  unfold statsMaxBound statsMaxBoundB at h ⊢
  rw [hmf, hmt]
  exact h

/-- `minListQ` yields null or a rational cell. -/
theorem minListQ_shape (vs : List (Option Val)) :
    minListQ vs = none ∨ ∃ q, minListQ vs = some (.q q) := by
  induction vs with
  | nil => left; rfl
  | cons v rest ih =>
    unfold minListQ at ih ⊢
    rw [List.foldr_cons]
    rcases ih with h | ⟨q, h⟩ <;> rw [h]
    · cases v with
      | none => left; rfl
      | some x =>
        cases x with
        | q y => right; exact ⟨y, rfl⟩
        | s y => left; rfl
        | i y => left; rfl
        | b y => left; rfl
    · cases v with
      | none => right; exact ⟨q, rfl⟩
      | some x =>
        cases x with
        | q y => right; exact ⟨min y q, rfl⟩
        | s y => right; exact ⟨q, rfl⟩
        | i y => right; exact ⟨q, rfl⟩
        | b y => right; exact ⟨q, rfl⟩

/-- `maxListQ` yields null or a rational cell. -/
theorem maxListQ_shape (vs : List (Option Val)) :
    maxListQ vs = none ∨ ∃ q, maxListQ vs = some (.q q) := by
  induction vs with
  | nil => left; rfl
  | cons v rest ih =>
    unfold maxListQ at ih ⊢
    rw [List.foldr_cons]
    rcases ih with h | ⟨q, h⟩ <;> rw [h]
    · cases v with
      | none => left; rfl
      | some x =>
        cases x with
        | q y => right; exact ⟨y, rfl⟩
        | s y => left; rfl
        | i y => left; rfl
        | b y => left; rfl
    · cases v with
      | none => right; exact ⟨q, rfl⟩
      | some x =>
        cases x with
        | q y => right; exact ⟨max y q, rfl⟩
        | s y => right; exact ⟨q, rfl⟩
        | i y => right; exact ⟨q, rfl⟩
        | b y => right; exact ⟨q, rfl⟩

/-- The first row of every `group_by` group is one of the grouped rows. -/
theorem mem_statsGroupsGo {g : Row × List Row} : ∀ {fuel : Nat} {rows : List Row},
    g ∈ statsGroupsGo fuel rows → g.1 ∈ rows := by
  intro fuel
  induction fuel with
  | zero =>
    intro rows hg
    cases rows with
    | nil => cases hg
    | cons r rs => cases hg
  | succ f ih =>
    intro rows hg
    cases rows with
    | nil => cases hg
    | cons r rs =>
      rcases List.mem_cons.mp hg with h | h
      · rw [h]
        exact List.mem_cons_self r rs
      · exact List.mem_cons_of_mem r (List.mem_of_mem_filter (ih h))

theorem mem_statsGroups {g : Row × List Row} {rows : List Row}
    (hg : g ∈ statsGroups rows) : g.1 ∈ rows :=
  mem_statsGroupsGo hg

/-- Rows of a left join: the left component is a left row, the right
component is a right row or the null row. -/
theorem mem_leftJoin_elim {rightCols lOn rOn : List String} {L R : List Row}
    {p : Row × Row} (hp : p ∈ leftJoin rightCols lOn rOn L R) :
    p.1 ∈ L ∧ (p.2 = nullRow rightCols ∨ p.2 ∈ R) := by
  unfold leftJoin at hp
  rcases List.mem_flatMap.mp hp with ⟨l, hl, hmem⟩
  by_cases hemp : (R.filter fun r => joinOnMatch lOn rOn l r).isEmpty
  · simp only [hemp, if_true, List.mem_singleton] at hmem
    rw [hmem]
    exact ⟨hl, Or.inl rfl⟩
  · simp only [hemp, if_false] at hmem
    rcases List.mem_map.mp hmem with ⟨r, hrf, hpr⟩
    rw [← hpr]
    exact ⟨hl, Or.inr (List.mem_of_mem_filter hrf)⟩

/-- C10: (derivation) every stats row produced by `_stats_cal` from a
batch whose current temperatures are typed (null or rational) satisfies
`min_temp ≤ min_forecast` and `max_temp ≥ max_forecast` whenever the
forecast bound is non-null; (reconciliation) `_update_stats` preserves
both bounds when every existing row satisfies them and every incoming row
has non-null forecast bounds and satisfies them. -/
theorem c10_stats_bounds :
    (∀ cur fc s, s ∈ (statsCal cur fc).2 →
      (∀ r ∈ cur, qOrNoneB (r.get "temp_c") = true) →
      statsMinBound s ∧ statsMaxBound s) ∧
    (∀ ex inc,
      (∀ r ∈ ex, statsMinBound r ∧ statsMaxBound r) →
      (∀ r ∈ inc, isQB (r.get "min_forecast") = true ∧
        isQB (r.get "max_forecast") = true ∧
        statsMinBound r ∧ statsMaxBound r) →
      ∀ o ∈ updateStats (some ex) inc,
        statsMinBound o ∧ statsMaxBound o) := by
  constructor
  · intro cur fc s hs hcur
    rcases mem_statsCal_snd hs with ⟨g, hg, _, hmf, hMf, hcv, hmt, hMt⟩
    have hg1 := mem_statsGroups hg
    rcases List.mem_map.mp hg1 with ⟨p, hpj, hpg⟩
    have haggcv : (aggGroup g).get "current_temp_c" =
        g.1.get "current_temp_c" := get_mkRow _ (by decide)
    have hg1cv : g.1.get "current_temp_c" = p.2.get "temp_c" := by
      rw [← hpg]
      exact get_mkRow _ (by decide)
    have hcvshape : qOrNoneB ((aggGroup g).get "current_temp_c") = true := by
      rw [haggcv, hg1cv]
      rcases (mem_leftJoin_elim hpj).2 with h | h
      · rw [h, get_nullRow]
        rfl
      · rcases List.mem_map.mp h with ⟨c0, hc0, hc0p⟩
        rw [← hc0p, get_setCol_ne _ _ (by decide)]
        exact hcur c0 hc0
    have haggmf : (aggGroup g).get "min_forecast" =
        minListQ ((g.1 :: g.2).map fun r => r.get "forecast_mintemp_c") :=
      get_mkRow _ (by decide)
    have haggMf : (aggGroup g).get "max_forecast" =
        maxListQ ((g.1 :: g.2).map fun r => r.get "forecast_maxtemp_c") :=
      get_mkRow _ (by decide)
    constructor
    · unfold statsMinBound statsMinBoundB
      rw [hmf, hmt]
      rcases minListQ_shape ((g.1 :: g.2).map fun r =>
          r.get "forecast_mintemp_c") with h | ⟨q, h⟩
      · rw [haggmf, h]
      · rw [haggmf, h]
        cases hcv2 : (aggGroup g).get "current_temp_c" with
        | none => simp [minHoriz]
        | some x =>
          cases x with
          | q y => simp [minHoriz, min_le_left]
          | s y => rw [hcv2] at hcvshape; exact absurd hcvshape (by simp [qOrNoneB])
          | i y => rw [hcv2] at hcvshape; exact absurd hcvshape (by simp [qOrNoneB])
          | b y => rw [hcv2] at hcvshape; exact absurd hcvshape (by simp [qOrNoneB])
    · unfold statsMaxBound statsMaxBoundB
      rw [hMf, hMt]
      rcases maxListQ_shape ((g.1 :: g.2).map fun r =>
          r.get "forecast_maxtemp_c") with h | ⟨q, h⟩
      · rw [haggMf, h]
      · rw [haggMf, h]
        cases hcv2 : (aggGroup g).get "current_temp_c" with
        | none => simp [maxHoriz]
        | some x =>
          cases x with
          | q y => simp [maxHoriz, le_max_left]
          | s y => rw [hcv2] at hcvshape; exact absurd hcvshape (by simp [qOrNoneB])
          | i y => rw [hcv2] at hcvshape; exact absurd hcvshape (by simp [qOrNoneB])
          | b y => rw [hcv2] at hcvshape; exact absurd hcvshape (by simp [qOrNoneB])
  · intro ex inc hex hinc o ho
    rcases List.mem_map.mp (mem_sortByKeys.mp ho) with ⟨p, hp, hop⟩
    have hub : ∀ c, c ∈ stUpdateCols → c ∉ stKeys →
        o.get c = coalesce2 (p.2.get c) (p.1.get c) := by
      intro c h1 h2
      rw [← hop]
      exact get_statsSelect_upd p h2 h1
    have homf := hub "min_forecast" (by decide) (by decide)
    have homt := hub "min_temp" (by decide) (by decide)
    have hoMf := hub "max_forecast" (by decide) (by decide)
    have hoMt := hub "max_temp" (by decide) (by decide)
    rcases mem_fullJoin_elim hp with ⟨l, hl, r, hr, _, hpe⟩ | ⟨l, hl, hpe, _⟩ |
      ⟨r, hr, hpe, _⟩
    · subst hpe
      rcases hinc r hr with ⟨hqmf, hqMf, hminr, hmaxr⟩
      constructor
      · cases hrmf : r.get "min_forecast" with
        | none => rw [hrmf] at hqmf; exact absurd hqmf (by simp [isQB])
        | some x =>
          cases x with
          | q m =>
            unfold statsMinBound statsMinBoundB at hminr ⊢
            rw [hrmf] at hminr
            cases hrmt : r.get "min_temp" with
            | none => rw [hrmt] at hminr; simp at hminr
            | some y =>
              cases y with
              | q b =>
                rw [homf, homt, hrmf, hrmt, coalesce2_some, coalesce2_some]
                rw [hrmt] at hminr
                exact hminr
              | s y => rw [hrmt] at hminr; simp at hminr
              | i y => rw [hrmt] at hminr; simp at hminr
              | b y => rw [hrmt] at hminr; simp at hminr
          | s m => rw [hrmf] at hqmf; exact absurd hqmf (by simp [isQB])
          | i m => rw [hrmf] at hqmf; exact absurd hqmf (by simp [isQB])
          | b m => rw [hrmf] at hqmf; exact absurd hqmf (by simp [isQB])
      · cases hrmf : r.get "max_forecast" with
        | none => rw [hrmf] at hqMf; exact absurd hqMf (by simp [isQB])
        | some x =>
          cases x with
          | q m =>
            unfold statsMaxBound statsMaxBoundB at hmaxr ⊢
            rw [hrmf] at hmaxr
            cases hrmt : r.get "max_temp" with
            | none => rw [hrmt] at hmaxr; simp at hmaxr
            | some y =>
              cases y with
              | q b =>
                rw [hoMf, hoMt, hrmf, hrmt, coalesce2_some, coalesce2_some]
                rw [hrmt] at hmaxr
                exact hmaxr
              | s y => rw [hrmt] at hmaxr; simp at hmaxr
              | i y => rw [hrmt] at hmaxr; simp at hmaxr
              | b y => rw [hrmt] at hmaxr; simp at hmaxr
          | s m => rw [hrmf] at hqMf; exact absurd hqMf (by simp [isQB])
          | i m => rw [hrmf] at hqMf; exact absurd hqMf (by simp [isQB])
          | b m => rw [hrmf] at hqMf; exact absurd hqMf (by simp [isQB])
    · subst hpe
      rcases hex l hl with ⟨hminl, hmaxl⟩
      constructor
      · refine statsMinBound_of_gets ?_ ?_ hminl
        · rw [homf]
          simp [get_nullRow, coalesce2_none_left]
        · rw [homt]
          simp [get_nullRow, coalesce2_none_left]
      · refine statsMaxBound_of_gets ?_ ?_ hmaxl
        · rw [hoMf]
          simp [get_nullRow, coalesce2_none_left]
        · rw [hoMt]
          simp [get_nullRow, coalesce2_none_left]
    · subst hpe
      rcases hinc r hr with ⟨_, _, hminr, hmaxr⟩
      constructor
      · refine statsMinBound_of_gets ?_ ?_ hminr
        · rw [homf]
          simp [get_nullRow, coalesce2_none_right]
        · rw [homt]
          simp [get_nullRow, coalesce2_none_right]
      · refine statsMaxBound_of_gets ?_ ?_ hmaxr
        · rw [hoMf]
          simp [get_nullRow, coalesce2_none_right]
        · rw [hoMt]
          simp [get_nullRow, coalesce2_none_right]

section WitnessRows

/-- A persisted `current_temp` row for key ("A","R","C", day 0). -/
def ctRowE : Row :=
  [("name", some (.s "A")), ("region", some (.s "R")),
   ("country", some (.s "C")), ("created_date_local", some (.i 0)),
   ("created_date_utc", some (.i 0)), ("last_updated", some (.i 0)),
   ("temp_c", some (.q 10)), ("temp_f", some (.q 50)),
   ("is_day", some (.i 1)), ("text", some (.s "Sunny")),
   ("code", some (.i 1000))]

/-- An incoming `current_temp` row with the same key, a fresh temperature
and a null `temp_f`. -/
def ctRowI : Row :=
  [("name", some (.s "A")), ("region", some (.s "R")),
   ("country", some (.s "C")), ("created_date_local", some (.i 0)),
   ("created_date_utc", some (.i 0)), ("last_updated", some (.i 7)),
   ("temp_c", some (.q 12)), ("temp_f", none), ("is_day", some (.i 1)),
   ("text", some (.s "Cloudy")), ("code", some (.i 1003))]

/-- A persisted `forecast_temp` row for key ("A","R","C", day 0, day 1). -/
def fcRowE : Row :=
  [("name", some (.s "A")), ("region", some (.s "R")),
   ("country", some (.s "C")), ("created_date_local", some (.i 0)),
   ("date", some (.i 1)), ("created_date_utc", some (.i 0)),
   ("date_epoch", some (.i 86400)), ("maxtemp_c", some (.q 20)),
   ("mintemp_c", some (.q 5)), ("avgtemp_c", some (.q 12)),
   ("uv", some (.q 3))]

/-- An incoming `forecast_temp` row with the same key and a revised
maximum temperature. -/
def fcRowI : Row :=
  [("name", some (.s "A")), ("region", some (.s "R")),
   ("country", some (.s "C")), ("created_date_local", some (.i 0)),
   ("date", some (.i 1)), ("created_date_utc", some (.i 0)),
   ("date_epoch", some (.i 86400)), ("maxtemp_c", some (.q 21)),
   ("mintemp_c", none), ("avgtemp_c", some (.q 13)), ("uv", none)]

/-- An incoming `stats` row for the already-known key ("A","R","C") from a
fresh batch. -/
def stRowA2 : Row :=
  [("name", some (.s "A")), ("region", some (.s "R")),
   ("country", some (.s "C")), ("current_temp_c", some (.q 25)),
   ("min_forecast", some (.q 6)), ("max_forecast", some (.q 21)),
   ("mean_forecast", some (.q 14)), ("highest_temp_date", some (.i 200)),
   ("min_temp", some (.q 6)), ("max_temp", some (.q 25))]

end WitnessRows

/-- Witness for C1 (amended): each relation's incoming-wins rule evaluated
at a one-row existing/incoming pair sharing its business key. -/
theorem c1_amended_incoming_wins_witness :
    (updateLocation (some [locRowA]) [locRowI]).headI.get "lon" =
      coalesce2 (locRowI.get "lon") (locRowA.get "lon") ∧
    (updateCurrentTemp (some [ctRowE]) [ctRowI]).headI.get "temp_c" =
      coalesce2 (ctRowI.get "temp_c") (ctRowE.get "temp_c") ∧
    (updateForecast (some [fcRowE]) [fcRowI]).headI.get "maxtemp_c" =
      coalesce2 (fcRowI.get "maxtemp_c") (fcRowE.get "maxtemp_c") ∧
    (updateMerged (some [mgRowE]) [mgRowI]).headI.get "current_temp_c" =
      coalesce2 (mgRowI.get "current_temp_c") (mgRowE.get "current_temp_c") ∧
    (updateStats (some [stRowA]) [stRowA2]).headI.get "current_temp_c" =
      coalesce2 (stRowA2.get "current_temp_c") (stRowA.get "current_temp_c") :=
  ⟨(c1_amended_incoming_wins.1 [locRowA] [locRowI] locRowA locRowI
      (by decide) (by decide) (by decide) (by decide) (by decide)
      (by decide)).2 _ (by decide!) (by decide!) "lon" (by decide),
   (c1_amended_incoming_wins.2.1 [ctRowE] [ctRowI] ctRowE ctRowI
      (by decide) (by decide) (by decide) (by decide) (by decide)
      (by decide)).2 _ (by decide!) (by decide!) "temp_c" (by decide),
   (c1_amended_incoming_wins.2.2.1 [fcRowE] [fcRowI] fcRowE fcRowI
      (by decide) (by decide) (by decide) (by decide) (by decide)
      (by decide)).2 _ (by decide!) (by decide!) "maxtemp_c" (by decide),
   (c1_amended_incoming_wins.2.2.2.1 [mgRowE] [mgRowI] mgRowE mgRowI
      (by decide) (by decide) (by decide) (by decide) (by decide)
      (by decide)).2 _ (by decide!) (by decide!) "current_temp_c"
      (by decide) (by decide) (by decide),
   (c1_amended_incoming_wins.2.2.2.2 [stRowA] [stRowA2] stRowA stRowA2
      (by decide) (by decide) (by decide) (by decide) (by decide)
      (by decide)).2 _ (by decide!) (by decide!) "current_temp_c"
      (by decide)⟩

/-- Witness for C5 (amended): the derived-column invariant evaluated on
the single row of a concrete reconciled `merged` relation. -/
theorem c5_amended_derived_invariant_witness :
    mergedDerivedInv ((updateMerged (some [mgRowE]) [mgRowI]).headI) :=
  c5_amended_derived_invariant.1 [mgRowE] [mgRowI] _ (by decide!)

/-- Witness for C6: each relation's historical-key survival evaluated at a
one-row existing relation and an incoming batch without that key. -/
theorem c6_historical_key_survival_witness :
    (updateLocation (some [locRowA]) [locRowB]).headI.get "lat" =
      locRowA.get "lat" ∧
    (updateCurrentTemp (some [ctRowE]) []).headI.get "temp_c" =
      ctRowE.get "temp_c" ∧
    (updateForecast (some [fcRowE]) []).headI.get "maxtemp_c" =
      fcRowE.get "maxtemp_c" ∧
    (updateMerged (some [mgRowE]) []).headI.get "forecast_current_temp_diff" =
      mgRowE.get "forecast_current_temp_diff" ∧
    (updateStats (some [stRowA]) []).headI.get "min_temp" =
      stRowA.get "min_temp" :=
  ⟨(c6_historical_key_survival.1 [locRowA] [locRowB] locRowA (by decide)
      (by decide) (by decide) (by decide)).2 _ (by decide!) (by decide!)
      "lat" (by decide),
   (c6_historical_key_survival.2.1 [ctRowE] [] ctRowE (by decide)
      (by decide) (by decide) (by decide)).2 _ (by decide!) (by decide!)
      "temp_c" (by decide),
   (c6_historical_key_survival.2.2.1 [fcRowE] [] fcRowE (by decide)
      (by decide) (by decide) (by decide)).2 _ (by decide!) (by decide!)
      "maxtemp_c" (by decide),
   (c6_historical_key_survival.2.2.2.1 [mgRowE] [] mgRowE (by decide)
      (by decide) (by decide) (by decide) (by decide!)).2 _ (by decide!)
      (by decide!) "forecast_current_temp_diff" (by decide),
   (c6_historical_key_survival.2.2.2.2 [stRowA] [] stRowA (by decide)
      (by decide) (by decide) (by decide)).2 _ (by decide!) (by decide!)
      "min_temp" (by decide)⟩

/-- Witness for C9 (amended): the reconciled `highest_temp_date` equals
the incoming batch's value on a concrete two-row reconcile, and the value
freshly derived from batch 2 follows the batch-local rule (25 ≥ 20 on the
single batch day 3). -/
theorem c9_amended_batch_local_highest_witness :
    (updateStats (some [stRowA]) [stRowA2]).headI.get "highest_temp_date" =
      stRowA2.get "highest_temp_date" ∧
    (statsCal [c9cur2] [c9fc2]).2.headI.get "highest_temp_date" =
      Option.map Val.i (specHighest 25 3 [(3, 20)]) := by
  constructor
  · exact c9_amended_batch_local_highest.1 [stRowA] [stRowA2] stRowA stRowA2
      (by decide) (by decide) (by decide) (by decide) (by decide) (by decide)
      (by decide) _ (by decide!) (by decide!)
  · obtain ⟨g, hg, hspec⟩ := c9_amended_batch_local_highest.2 [c9cur2] [c9fc2]
      ((statsCal [c9cur2] [c9fc2]).2.headI) (by decide!)
    have hsingle : statsGroups (statsCal [c9cur2] [c9fc2]).1 =
        [((statsCal [c9cur2] [c9fc2]).1.headI, [])] := by decide!
    rw [hsingle] at hg
    have hgeq : g = ((statsCal [c9cur2] [c9fc2]).1.headI, []) :=
      List.mem_singleton.mp hg
    subst hgeq
    exact hspec [(3, 20)] 25 3 (by decide!) (by decide!) (by decide!)

/-- Witness for C10: the bounds evaluated on a concrete derived stats
relation and on a concrete reconciled stats relation. -/
theorem c10_stats_bounds_witness :
    (statsMinBound ((statsCal [c9cur2] [c9fc2]).2.headI) ∧
      statsMaxBound ((statsCal [c9cur2] [c9fc2]).2.headI)) ∧
    (statsMinBound ((updateStats (some [stRowA]) [stRowA2]).headI) ∧
      statsMaxBound ((updateStats (some [stRowA]) [stRowA2]).headI)) :=
  ⟨c10_stats_bounds.1 [c9cur2] [c9fc2] _ (by decide!) (by decide),
   c10_stats_bounds.2 [stRowA] [stRowA2] (by decide) (by decide) _
     (by decide!)⟩

end WeatherRecon
